import Mathlib

/-!
# rule-syncer: the reconciliation handler over a model of the filesystem

The handler of `main.go` (`OnAdd`, `OnDelete`, `OnUpdate`, `addRule`,
`deleteRule`) is embedded as pure functions that pass the filesystem state
explicitly.  The Go standard-library calls it makes (`path.Join`, `os.Mkdir`,
`ioutil.WriteFile`, `os.RemoveAll`) are not part of the repository; they are
given executable models of their documented behaviour on Linux (Go 1.12 and
later for `os.RemoveAll`) below.  A path is a string of characters of which
only `/` and `.` are inspected.  File permissions, symbolic links, disk quotas
and I/O faults are outside the model.
-/

namespace RuleSyncer

/-! ## Go strings, maps and errors -/

/-- Indexing a Go `map[string]string`: a missing key (or a nil map, modelled as
the empty list) yields the zero value `""`. -/
def mapIndex (m : List (String × String)) (k : String) : String :=
  (m.lookup k).getD ""

/-- Error numbers that the modelled system calls can report. -/
inductive Errno where
  | ENOENT
  | ENOTDIR
  | EEXIST
  | EISDIR
  | EINVAL
  | EBUSY
  | ENOTEMPTY
  deriving DecidableEq, Repr

/-- Go's `*os.PathError`: the failing operation, the path it was given and the
underlying error number. -/
structure PathError where
  Op : String
  Path : String
  Err : Errno
  deriving DecidableEq, Repr

/-! ## Package `path` -/

/-- Cut a byte string at every `/`; the result is never empty and has one more
element than there are slashes. -/
def splitSlash : List Char → List String
  | [] => [""]
  | c :: cs =>
    if c = '/' then "" :: splitSlash cs
    else
      match splitSlash cs with
      | [] => [String.mk [c]]
      | w :: ws => String.mk (c :: w.data) :: ws

/-- Put `/` between the elements. -/
def joinSlash : List String → List Char
  | [] => []
  | [w] => w.data
  | w :: ws => w.data ++ '/' :: joinSlash ws

/-- One path element consumed by `path.Clean`.  The elements kept so far are
held innermost first.  Empty and `.` elements are dropped; `..` removes the
element before it when that is a real name, is kept at the front of an
unrooted path, and is dropped at the root of a rooted one. -/
def cleanStep (rooted : Bool) (rst : List String) (c : String) : List String :=
  if c = "" ∨ c = "." then rst
  else if c = ".." then
    match rst with
    | [] => if rooted then [] else [".."]
    | top :: rest => if top = ".." then ".." :: top :: rest else rest
  else c :: rst

/-- Whether the path starts with a slash. -/
def isRooted (s : String) : Bool :=
  match s.data with
  | c :: _ => c = '/'
  | [] => false

/-- The elements that `path.Clean` keeps, innermost first. -/
def cleanStack (s : String) : List String :=
  (splitSlash s.data).foldl (cleanStep (isRooted s)) []

/-- The elements that `path.Clean` keeps, outermost first. -/
def cleanElems (s : String) : List String :=
  (cleanStack s).reverse

/-- Write a cleaned path: the root slash if rooted, the elements separated by
slashes, and `.` for the empty unrooted path. -/
def renderPath (rooted : Bool) (st : List String) : String :=
  if rooted then String.mk ('/' :: joinSlash st)
  else if st = [] then "."
  else String.mk (joinSlash st)

end RuleSyncer

namespace path

/-- Go's `path.Clean`: the shortest path name equivalent to the argument by
purely lexical processing (slashes collapsed, `.` removed, inner `..` resolved,
`/..` at the root replaced by `/`, the empty result written `.`). -/
def Clean (s : String) : String :=
  RuleSyncer.renderPath (RuleSyncer.isRooted s) (RuleSyncer.cleanElems s)

/-- Go's `path.Join`: leading empty elements are ignored, the rest are joined
with slashes and cleaned; when every element is empty the result is `""`. -/
def Join (elem : List String) : String :=
  match elem.dropWhile (fun e => e = "") with
  | [] => ""
  | e :: es => Clean (String.mk (RuleSyncer.joinSlash (e :: es)))

end path

namespace RuleSyncer

/-! ## The filesystem -/

/-- What a path can name: a regular file with its content, or a directory. -/
inductive Node where
  | file (data : String)
  | dir
  deriving DecidableEq, Repr

/-- The state of the filesystem as the process sees it: its working directory
and, for every absolute location (the list of names below the root), the node
there if any.  The root itself is always a directory. -/
structure FS where
  cwd : List String
  node : List String → Option Node

/-- The node at an absolute location. -/
def FS.lookup (fs : FS) (p : List String) : Option Node :=
  if p = [] then some Node.dir else fs.node p

/-- Put node `n` at location `t`. -/
def FS.set (fs : FS) (t : List String) (n : Node) : FS :=
  { fs with node := fun q => if q = t then some n else fs.node q }

/-- Drop location `t` and everything below it. -/
def FS.removeTree (fs : FS) (t : List String) : FS :=
  { fs with node := fun q => if t.isPrefixOf q then none else fs.node q }

/-- Drop everything strictly below location `t`, keeping `t`. -/
def FS.removeBelow (fs : FS) (t : List String) : FS :=
  { fs with node := fun q => if t.isPrefixOf q && !(q == t) then none else fs.node q }

/-- Where one path element leads from directory `cur`. -/
def stepTarget (cur : List String) (c : String) : List String :=
  if c = "" ∨ c = "." then cur
  else if c = ".." then cur.dropLast
  else cur ++ [c]

/-- Searching through location `t` requires a directory there. -/
def checkDir (fs : FS) (t : List String) : Except Errno Unit :=
  match fs.lookup t with
  | some Node.dir => .ok ()
  | some (Node.file _) => .error Errno.ENOTDIR
  | none => .error Errno.ENOENT

/-- Path lookup: every element but the last must lead to an existing
directory; the last names the target, which need not exist. -/
def walkLast (fs : FS) : List String → List String → Except Errno (List String)
  | cur, [] => .ok cur
  | cur, [c] => .ok (stepTarget cur c)
  | cur, c :: c2 :: cs =>
    match checkDir fs (stepTarget cur c) with
    | .ok _ => walkLast fs (stepTarget cur c) (c2 :: cs)
    | .error e => .error e

/-- The elements the kernel walks for a path: those of the path itself, after an
initial `.` for a relative path, which starts in the working directory. -/
def pathElems (p : String) : List String :=
  if isRooted p then splitSlash p.data else "." :: splitSlash p.data

/-- The absolute location a path names in the present state.  The empty path
names nothing. -/
def resolve (fs : FS) (p : String) : Except Errno (List String) :=
  if p = "" then .error Errno.ENOENT
  else walkLast fs (if isRooted p then [] else fs.cwd) (pathElems p)

/-- The node a path names, if the lookup succeeds and something is there. -/
def stat (fs : FS) (p : String) : Option Node :=
  match resolve fs p with
  | .ok t => fs.lookup t
  | .error _ => none

/-- The content of the regular file a path names, if there is one. -/
def readFile (fs : FS) (p : String) : Option String :=
  match stat fs p with
  | some (Node.file d) => some d
  | _ => none

/-- Whether a path names an existing directory. -/
def isDir (fs : FS) (p : String) : Bool :=
  stat fs p == some Node.dir

/-- Whether a path names anything at all. -/
def pathExists (fs : FS) (p : String) : Bool :=
  (stat fs p).isSome

/-- The error number `os.Stat` would report for a path, if any. -/
def statErrno (fs : FS) (p : String) : Option Errno :=
  match resolve fs p with
  | .error e => some e
  | .ok t => if fs.lookup t = none then some Errno.ENOENT else none

/-- The last element of a path as written. -/
def lastElem (p : String) : String :=
  (splitSlash p.data).getLastD ""

/-- An ordinary file name: not empty, not `.`, not `..`. -/
def isName (c : String) : Bool :=
  !(c == "") && !(c == ".") && !(c == "..")

end RuleSyncer

namespace os

open RuleSyncer

/-- Go's `os.Mkdir` (the `mkdir` system call): fails with `ENOENT`/`ENOTDIR`
when the parent cannot be reached and with `EEXIST` when anything already has
the name; otherwise creates an empty directory. -/
def Mkdir (fs : FS) (name : String) : FS × Option PathError :=
  match resolve fs name with
  | .error e => (fs, some ⟨"mkdir", name, e⟩)
  | .ok t =>
    match fs.lookup t with
    | some _ => (fs, some ⟨"mkdir", name, Errno.EEXIST⟩)
    | none => (fs.set t Node.dir, none)

/-- Go's `os.RemoveAll` on Linux.  The empty path and a missing path are
successes that change nothing; a path whose last element is `.` is refused with
`EINVAL`; a file in the place of an ancestor directory is an error; the root
and a path ending in `..` lose their contents but cannot themselves be removed,
which is reported; anything else is removed with all it contains.  The `Op`
field of the errors is schematic. -/
def RemoveAll (fs : FS) (path : String) : FS × Option PathError :=
  if path = "" then (fs, none)
  else if lastElem path = "." then (fs, some ⟨"RemoveAll", path, Errno.EINVAL⟩)
  else
    match resolve fs path with
    | .error Errno.ENOENT => (fs, none)
    | .error e => (fs, some ⟨"unlinkat", path, e⟩)
    | .ok t =>
      match fs.lookup t with
      | none => (fs, none)
      | some _ =>
        if t = [] then (fs.removeBelow t, some ⟨"unlinkat", path, Errno.EBUSY⟩)
        else if lastElem path = ".." then
          (fs.removeBelow t, some ⟨"unlinkat", path, Errno.ENOTEMPTY⟩)
        else (fs.removeTree t, none)

end os

namespace ioutil

open RuleSyncer

/-- Go's `ioutil.WriteFile`: open with create and truncate, write all the data.
Fails when the parent cannot be reached or the name is a directory; otherwise
the file holds exactly `data` afterwards. -/
def WriteFile (fs : FS) (filename : String) (data : String) : FS × Option PathError :=
  match resolve fs filename with
  | .error e => (fs, some ⟨"open", filename, e⟩)
  | .ok t =>
    match fs.lookup t with
    | some Node.dir => (fs, some ⟨"open", filename, Errno.EISDIR⟩)
    | _ => (fs.set t (Node.file data), none)

end ioutil

namespace RuleSyncer

/-! ## The handler (`main.go`) -/

/-- The data key of the rules payload. -/
def dataKey : String := "rules.yaml"

/-- The label key of the tenant. -/
def labelKey : String := "rules4tenant"

/-- The fields of `corev1.ConfigMap` that the handler reads. -/
structure ConfigMap where
  Name : String
  Labels : List (String × String)
  Data : List (String × String)

/-- The handler and its configuration. -/
structure handler where
  BaseDir : String

/-- A line given to the logger: an error value or a formatted message. -/
inductive LogLine where
  | err (e : PathError)
  | msg (text : String)
  deriving DecidableEq, Repr

/-- The method `handler.addRule`: make the tenant directory, discarding whatever `os.Mkdir`
returns, then write the payload to the rules file and return the result of the
write. -/
def handler.addRule (h : handler) (cm : ConfigMap) (fs : FS) : FS × Option PathError :=
  let tenant := mapIndex cm.Labels labelKey
  let tenantDir := path.Join [h.BaseDir, tenant]
  let fs1 := (os.Mkdir fs tenantDir).1
  let filename := path.Join [tenantDir, dataKey]
  ioutil.WriteFile fs1 filename (mapIndex cm.Data dataKey)

/-- The method `handler.deleteRule`: remove the tenant directory with all it contains. -/
def handler.deleteRule (h : handler) (cm : ConfigMap) (fs : FS) : FS × Option PathError :=
  let tenant := mapIndex cm.Labels labelKey
  let tenantDir := path.Join [h.BaseDir, tenant]
  os.RemoveAll fs tenantDir

/-- The method `handler.OnAdd`: add the rule and log the error or the success. -/
def handler.OnAdd (h : handler) (cm : ConfigMap) (fs : FS) : FS × List LogLine :=
  match h.addRule cm fs with
  | (fs1, some e) => (fs1, [LogLine.err e])
  | (fs1, none) => (fs1, [LogLine.msg ("add rules in " ++ cm.Name)])

/-- The method `handler.OnDelete`: delete the rule and log the error or the success. -/
def handler.OnDelete (h : handler) (cm : ConfigMap) (fs : FS) : FS × List LogLine :=
  match h.deleteRule cm fs with
  | (fs1, some e) => (fs1, [LogLine.err e])
  | (fs1, none) => (fs1, [LogLine.msg ("delete rules in " ++ cm.Name)])

/-- The method `handler.OnUpdate`: nothing when neither payload nor tenant changed;
otherwise add the new rule, then, when the tenant changed, delete the old one;
errors are logged and the update is logged at the end. -/
def handler.OnUpdate (h : handler) (oldCm newCm : ConfigMap) (fs : FS) : FS × List LogLine :=
  let dataChanged := mapIndex oldCm.Data dataKey != mapIndex newCm.Data dataKey
  let tenantChanged := mapIndex oldCm.Labels labelKey != mapIndex newCm.Labels labelKey
  if !dataChanged && !tenantChanged then (fs, [])
  else
    let r1 := h.addRule newCm fs
    let log1 := match r1.2 with
      | some e => [LogLine.err e]
      | none => []
    let r2 := if tenantChanged then h.deleteRule oldCm r1.1 else (r1.1, none)
    let log2 := match r2.2 with
      | some e => [LogLine.err e]
      | none => []
    (r2.1, log1 ++ log2 ++ [LogLine.msg ("update rules in " ++ newCm.Name)])

/-- The tenant directory of an object, as `addRule` and `deleteRule` compute
it. -/
def handler.tenantDir (h : handler) (cm : ConfigMap) : String :=
  path.Join [h.BaseDir, mapIndex cm.Labels labelKey]

/-- The rules file of an object, as `addRule` computes it. -/
def handler.rulesFile (h : handler) (cm : ConfigMap) : String :=
  path.Join [h.tenantDir cm, dataKey]

/-- Nothing of any tenant is left under the base directory: the base directory
itself names nothing, and for every ordinary tenant name neither the tenant
directory nor its rules file exists. -/
def handler.noTenantLeft (h : handler) (s : FS) : Prop :=
  pathExists s (path.Join [h.BaseDir, ""]) = false
    ∧ ∀ T : String, isName T = true → '/' ∉ T.data →
        pathExists s (path.Join [h.BaseDir, T]) = false
          ∧ readFile s (path.Join [path.Join [h.BaseDir, T], dataKey]) = none

/-! ## Concrete states for the examples -/

/-- The state with working directory `cwd` holding exactly the listed nodes. -/
def mkFS (cwd : List String) (nodes : List (List String × Node)) : FS :=
  { cwd := cwd, node := fun q => nodes.lookup q }

/-- An object with the given tenant label and payload. -/
def mkCm (tenant payload : String) : ConfigMap :=
  { Name := "cm", Labels := [(labelKey, tenant)], Data := [(dataKey, payload)] }

/-- An object without any label. -/
def mkCmNoLabel (payload : String) : ConfigMap :=
  { Name := "cm", Labels := [], Data := [(dataKey, payload)] }

/-- The handler with the default base directory. -/
def hDefault : handler := { BaseDir := "/etc/loki/rules" }

/-- A state in which the default base directory exists and is empty. -/
def fsBase : FS :=
  mkFS [] [(["etc"], Node.dir), (["etc", "loki"], Node.dir), (["etc", "loki", "rules"], Node.dir)]

/-- A state with nothing but the root. -/
def fsEmpty : FS := mkFS [] []

/-- A handler running in its base directory. -/
def hHere : handler := { BaseDir := "." }

/-- A state whose working directory `/srv` exists and is empty. -/
def fsSrv : FS := mkFS ["srv"] [(["srv"], Node.dir)]

/-- A state in which tenant `team-a` has its directory and rules file under
the default base directory. -/
def fsTenant : FS :=
  mkFS [] [(["etc"], Node.dir), (["etc", "loki"], Node.dir), (["etc", "loki", "rules"], Node.dir),
    (["etc", "loki", "rules", "team-a"], Node.dir),
    (["etc", "loki", "rules", "team-a", "rules.yaml"], Node.file "groups: []")]

/-- A state in which the name of tenant `t` under the default base directory is
taken by a regular file. -/
def fsTaken : FS :=
  mkFS [] [(["etc"], Node.dir), (["etc", "loki"], Node.dir), (["etc", "loki", "rules"], Node.dir),
    (["etc", "loki", "rules", "t"], Node.file "x")]

/-- A state whose working directory `/srv` holds the directory and rules file
of tenant `t`. -/
def fsSrvTenant : FS :=
  mkFS ["srv"] [(["srv"], Node.dir), (["srv", "t"], Node.dir),
    (["srv", "t", "rules.yaml"], Node.file "groups: []")]

end RuleSyncer

namespace RuleSyncer

/-! ## Auxiliary notions for the proofs -/

/-- A string without a slash. -/
def slashFree (w : String) : Prop := '/' ∉ w.data

/-- An element that `path.Clean` can keep. -/
def elemOk (w : String) : Prop := w ≠ "" ∧ w ≠ "." ∧ slashFree w

/-- The kept elements, innermost first, of a cleaned path: `..` occurs only in
an unrooted path and only outside every real name. -/
def okStack (r : Bool) : List String → Prop
  | [] => True
  | top :: rest =>
    elemOk top ∧ (if top = ".." then r = false ∧ ∀ x ∈ rest, x = ".." else okStack r rest)

/-- The initial element of the walk: the root for a rooted path, the working
directory otherwise. -/
def startElem (r : Bool) : String := if r then "" else "."

end RuleSyncer

namespace RuleSyncer

/-- Every directory of the first state is a directory of the second. -/
def DirLE (a b : FS) : Prop := ∀ v, a.lookup v = some Node.dir → b.lookup v = some Node.dir

/-- Pass through the directory a lookup has reached to the child named `x`. -/
def enterDir (fs : FS) (x : String) : Except Errno (List String) → Except Errno (List String)
  | .ok t =>
    match checkDir fs t with
    | .ok _ => .ok (t ++ [x])
    | .error e => .error e
  | .error e => .error e

end RuleSyncer

namespace RuleSyncer

/-- The state `addRule` leaves when the tenant directory at `t` can be used:
the directory made if it was missing, the rules file in it holding `P`. -/
def addState (fs : FS) (t : List String) (P : String) : FS :=
  (if fs.lookup t = none then fs.set t Node.dir else fs).set (t ++ [dataKey]) (Node.file P)

/-- Making the directory at this path again would find something there. -/
def NoNew (fs : FS) (p : String) : Prop := ∀ t, resolve fs p = .ok t → fs.lookup t ≠ none

end RuleSyncer

namespace RuleSyncer

/-! ## Lemmas on splitting and joining at slashes -/

theorem str_eq_iff (a b : String) : a = b ↔ a.data = b.data :=
  ⟨fun h => by rw [h], fun h => String.ext h⟩

theorem splitSlash_ne_nil (l : List Char) : splitSlash l ≠ [] := by
  cases l with
  | nil => simp [splitSlash]
  | cons c cs =>
    unfold splitSlash
    split
    · simp
    · split <;> simp

theorem splitSlash_append (a b : List Char) :
    splitSlash (a ++ '/' :: b) = splitSlash a ++ splitSlash b := by
  induction a with
  | nil => simp [splitSlash]
  | cons c cs ih =>
    by_cases hc : c = '/'
    · simp [splitSlash, hc, ih]
    · have h1 : splitSlash (c :: cs ++ '/' :: b)
          = match splitSlash (cs ++ '/' :: b) with
            | [] => [String.mk [c]]
            | w :: ws => String.mk (c :: w.data) :: ws := by
        simp [splitSlash, hc]
      have h2 : splitSlash (c :: cs)
          = match splitSlash cs with
            | [] => [String.mk [c]]
            | w :: ws => String.mk (c :: w.data) :: ws := by
        simp [splitSlash, hc]
      rw [h1, h2, ih]
      cases hs : splitSlash cs with
      | nil => exact absurd hs (splitSlash_ne_nil cs)
      | cons w ws => simp

theorem splitSlash_slashFree (l : List Char) : ∀ w ∈ splitSlash l, slashFree w := by
  induction l with
  | nil => intro w hw; simp [splitSlash] at hw; subst hw; simp [slashFree]
  | cons c cs ih =>
    intro w hw
    by_cases hc : c = '/'
    · simp [splitSlash, hc] at hw
      rcases hw with hw | hw
      · subst hw; simp [slashFree]
      · exact ih w hw
    · have h2 : splitSlash (c :: cs)
          = match splitSlash cs with
            | [] => [String.mk [c]]
            | w :: ws => String.mk (c :: w.data) :: ws := by
        simp [splitSlash, hc]
      rw [h2] at hw
      cases hs : splitSlash cs with
      | nil => exact absurd hs (splitSlash_ne_nil cs)
      | cons v vs =>
        rw [hs] at hw ih
        simp at hw
        rcases hw with hw | hw
        · subst hw
          have := ih v (by simp)
          simp [slashFree] at this ⊢
          exact ⟨fun h => hc h.symm, this⟩
        · exact ih w (by simp [hw])

theorem splitSlash_of_slashFree (w : String) (h : slashFree w) : splitSlash w.data = [w] := by
  obtain ⟨l⟩ := w
  simp only [slashFree] at h
  induction l with
  | nil => rfl
  | cons c cs ih =>
    simp at h
    have hc : c ≠ '/' := fun e => h.1 e.symm
    have := ih h.2
    simp [splitSlash, hc, this]

theorem splitSlash_joinSlash (st : List String) (hne : st ≠ [])
    (hsf : ∀ w ∈ st, slashFree w) : splitSlash (joinSlash st) = st := by
  induction st with
  | nil => exact absurd rfl hne
  | cons w ws ih =>
    cases ws with
    | nil => simpa [joinSlash] using splitSlash_of_slashFree w (hsf w (by simp))
    | cons v vs =>
      have h1 : joinSlash (w :: v :: vs) = w.data ++ '/' :: joinSlash (v :: vs) := rfl
      rw [h1, splitSlash_append, splitSlash_of_slashFree w (hsf w (by simp)),
        ih (by simp) (fun x hx => hsf x (by simp [hx]))]
      rfl

end RuleSyncer

namespace RuleSyncer

/-! ## The shape of a cleaned path -/

theorem elemOk_dotdot : elemOk ".." := by
  refine ⟨by decide, by decide, ?_⟩
  simp [slashFree]

theorem okStack_dotdots (l : List String) (h : ∀ x ∈ l, x = "..") : okStack false l := by
  induction l with
  | nil => trivial
  | cons a as ih =>
    have ha : a = ".." := h a (by simp)
    subst ha
    exact ⟨elemOk_dotdot, by simp; exact fun x hx => h x (by simp [hx])⟩

theorem okStack_tail {r : Bool} {top : String} {rest : List String}
    (h : okStack r (top :: rest)) : okStack r rest := by
  obtain ⟨_, h2⟩ := h
  by_cases ht : top = ".."
  · simp [ht] at h2
    rw [h2.1]
    exact okStack_dotdots rest h2.2
  · simpa [ht] using h2

theorem okStack_elem {r : Bool} {rst : List String} (h : okStack r rst) :
    ∀ w ∈ rst, elemOk w := by
  induction rst with
  | nil => simp
  | cons a as ih =>
    intro w hw
    simp at hw
    rcases hw with hw | hw
    · subst hw; exact h.1
    · exact ih (okStack_tail h) w hw

theorem okStack_step {r : Bool} {rst : List String} (c : String)
    (h : okStack r rst) (hc : slashFree c) : okStack r (cleanStep r rst c) := by
  unfold cleanStep
  by_cases h1 : c = "" ∨ c = "."
  · simpa [h1] using h
  · rw [if_neg h1]
    by_cases h2 : c = ".."
    · rw [if_pos h2]
      cases rst with
      | nil =>
        cases r with
        | true => trivial
        | false => exact ⟨elemOk_dotdot, by simp⟩
      | cons top rest =>
        by_cases ht : top = ".."
        · simp only [ht, if_true]
          subst ht
          have h2 := h.2
          simp at h2
          exact ⟨elemOk_dotdot, by simp; exact ⟨h2.1, h2.2⟩⟩
        · simp only [ht, if_false]
          exact okStack_tail h
    · rw [if_neg h2]
      push_neg at h1
      exact ⟨⟨h1.1, h1.2, hc⟩, by simpa [h2] using h⟩

theorem okStack_foldl {r : Bool} (cs : List String) (hcs : ∀ c ∈ cs, slashFree c) :
    ∀ rst, okStack r rst → okStack r (cs.foldl (cleanStep r) rst) := by
  induction cs with
  | nil => intro rst h; simpa using h
  | cons c cs ih =>
    intro rst h
    simp only [List.foldl_cons]
    exact ih (fun x hx => hcs x (by simp [hx])) _
      (okStack_step c h (hcs c (by simp)))

theorem okStack_cleanStack (s : String) : okStack (isRooted s) (cleanStack s) :=
  okStack_foldl _ (splitSlash_slashFree _) [] trivial

/-- Cleaning the elements of an already cleaned path changes nothing. -/
theorem foldl_cleanStep_okStack {r : Bool} (rst : List String) (h : okStack r rst) :
    rst.reverse.foldl (cleanStep r) [] = rst := by
  induction rst with
  | nil => rfl
  | cons top rest ih =>
    rw [List.reverse_cons, List.foldl_append, ih (okStack_tail h)]
    simp only [List.foldl_cons, List.foldl_nil]
    obtain ⟨⟨e1, e2, _⟩, h2⟩ := h
    unfold cleanStep
    rw [if_neg (by simp [e1, e2])]
    by_cases ht : top = ".."
    · rw [if_pos ht]
      simp [ht] at h2
      cases rest with
      | nil => simp [h2.1, ht]
      | cons a as =>
        have ha : a = ".." := h2.2 a (by simp)
        simp [ha, ht]
    · rw [if_neg ht]

end RuleSyncer

namespace RuleSyncer

/-! ## Cleaning is idempotent -/

theorem cleanStep_skip_empty (r : Bool) (rst : List String) : cleanStep r rst "" = rst := by
  simp [cleanStep]

theorem cleanStep_skip_dot (r : Bool) (rst : List String) : cleanStep r rst "." = rst := by
  simp [cleanStep]

theorem cleanStep_name (r : Bool) (rst : List String) (x : String) (hx : isName x = true) :
    cleanStep r rst x = x :: rst := by
  simp [isName] at hx
  simp [cleanStep, hx]

theorem joinSlash_cons_data (w : String) (ws : List String) :
    ∃ tl, joinSlash (w :: ws) = w.data ++ tl := by
  cases ws with
  | nil => exact ⟨[], by simp [joinSlash]⟩
  | cons v vs => exact ⟨'/' :: joinSlash (v :: vs), rfl⟩

theorem isRooted_render {r : Bool} {rst : List String} (h : okStack r rst) :
    isRooted (renderPath r rst.reverse) = r := by
  cases r with
  | true => simp [renderPath, isRooted]
  | false =>
    by_cases hst : rst.reverse = []
    · simp [renderPath, hst, isRooted]
    · simp only [renderPath, hst, if_false, Bool.false_eq_true]
      cases hrev : rst.reverse with
      | nil => exact absurd hrev hst
      | cons w ws =>
        obtain ⟨tl, htl⟩ := joinSlash_cons_data w ws
        have hw : elemOk w := okStack_elem h w (by
          have : w ∈ rst.reverse := by simp [hrev]
          simpa using this)
        obtain ⟨l⟩ := w
        cases l with
        | nil => exact absurd rfl hw.1
        | cons c cs =>
          have hc : c ≠ '/' := by
            have := hw.2.2
            simp [slashFree] at this
            exact fun e => this.1 e.symm
          simp [isRooted, htl, hc]

theorem splitSlash_render {r : Bool} {rst : List String} (h : okStack r rst) :
    splitSlash (renderPath r rst.reverse).data
      = if r then "" :: (if rst = [] then [""] else rst.reverse)
        else (if rst = [] then ["."] else rst.reverse) := by
  have hsf : ∀ w ∈ rst.reverse, slashFree w := fun w hw =>
    (okStack_elem h w (by simpa using hw)).2.2
  cases r with
  | true =>
    by_cases hst : rst = []
    · subst hst; simp [renderPath, splitSlash, joinSlash]
    · have hne : rst.reverse ≠ [] := by simpa using hst
      simp [renderPath, hst, splitSlash, splitSlash_joinSlash _ hne hsf]
  | false =>
    by_cases hst : rst = []
    · subst hst
      simp [renderPath]
      rfl
    · have hne : rst.reverse ≠ [] := by simpa using hst
      simp [renderPath, hst, splitSlash_joinSlash _ hne hsf]

theorem cleanStack_render {r : Bool} {rst : List String} (h : okStack r rst) :
    cleanStack (renderPath r rst.reverse) = rst := by
  unfold cleanStack
  rw [isRooted_render h, splitSlash_render h]
  cases r with
  | true =>
    by_cases hst : rst = []
    · subst hst; simp [cleanStep_skip_empty]
    · simp [hst, cleanStep_skip_empty, foldl_cleanStep_okStack rst h]
  | false =>
    by_cases hst : rst = []
    · subst hst; simp [cleanStep_skip_dot]
    · simp [hst, foldl_cleanStep_okStack rst h]

theorem isRooted_Clean (s : String) : isRooted (path.Clean s) = isRooted s := by
  unfold path.Clean cleanElems
  exact isRooted_render (okStack_cleanStack s)

theorem cleanStack_Clean (s : String) : cleanStack (path.Clean s) = cleanStack s := by
  unfold path.Clean cleanElems
  exact cleanStack_render (okStack_cleanStack s)

theorem cleanElems_Clean (s : String) : cleanElems (path.Clean s) = cleanElems s := by
  unfold cleanElems
  rw [cleanStack_Clean]

/-- The fixed point property of `path.Clean`. -/
theorem Clean_idem (s : String) : path.Clean (path.Clean s) = path.Clean s := by
  show renderPath (isRooted (path.Clean s)) (cleanElems (path.Clean s)) = path.Clean s
  rw [isRooted_Clean, cleanElems_Clean]
  rfl

theorem Clean_ne_empty (s : String) : path.Clean s ≠ "" := by
  unfold path.Clean renderPath
  split
  · simp [str_eq_iff]
  · split
    · decide
    · rename_i h1 h2
      have hok := okStack_cleanStack s
      cases hst : cleanElems s with
      | nil => exact absurd hst h2
      | cons w ws =>
        obtain ⟨tl, htl⟩ := joinSlash_cons_data w ws
        have hw : elemOk w := okStack_elem hok w (by
          have : w ∈ cleanElems s := by simp [hst]
          simpa [cleanElems] using this)
        obtain ⟨l⟩ := w
        cases l with
        | nil => exact absurd rfl hw.1
        | cons c cs => simp [str_eq_iff, htl]

theorem pathElems_Clean (s : String) :
    pathElems (path.Clean s)
      = startElem (isRooted s)
          :: (if cleanElems s = [] then [startElem (isRooted s)] else cleanElems s) := by
  have hok := okStack_cleanStack s
  have h1 : path.Clean s = renderPath (isRooted s) (cleanStack s).reverse := rfl
  unfold pathElems
  rw [isRooted_Clean, h1, splitSlash_render hok]
  unfold cleanElems startElem
  cases isRooted s <;> simp

end RuleSyncer

namespace RuleSyncer

/-! ## Paths below a cleaned path -/

theorem isRooted_append (p : String) (hp : p ≠ "") (tl : List Char) :
    isRooted (String.mk (p.data ++ tl)) = isRooted p := by
  obtain ⟨l⟩ := p
  cases l with
  | nil => exact absurd rfl hp
  | cons c cs => simp [isRooted]

theorem cleanStack_append (p : String) (hp : p ≠ "") (b : List Char) :
    cleanStack (String.mk (p.data ++ '/' :: b))
      = (splitSlash b).foldl (cleanStep (isRooted p)) (cleanStack p) := by
  unfold cleanStack
  rw [isRooted_append p hp]
  show List.foldl (cleanStep (isRooted p)) [] (splitSlash (p.data ++ '/' :: b)) = _
  rw [splitSlash_append, List.foldl_append]

theorem Clean_congr {a b : String} (hr : isRooted a = isRooted b)
    (hs : cleanStack a = cleanStack b) : path.Clean a = path.Clean b := by
  unfold path.Clean cleanElems
  rw [hr, hs]

/-- Joining a non-empty path with an empty element only cleans it. -/
theorem Join_empty_right (a : String) (ha : a ≠ "") : path.Join [a, ""] = path.Clean a := by
  have h1 : path.Join [a, ""] = path.Clean (String.mk (a.data ++ '/' :: [])) := by
    simp [path.Join, List.dropWhile, ha, joinSlash]
  rw [h1]
  apply Clean_congr
  · rw [isRooted_append a ha]
  · rw [cleanStack_append a ha]
    simp [splitSlash, cleanStep_skip_empty]

theorem Join_cons_ne (a b : String) (ha : a ≠ "") :
    path.Join [a, b] = path.Clean (String.mk (a.data ++ '/' :: b.data)) := by
  simp [path.Join, List.dropWhile, ha, joinSlash]

theorem Join_empty_left (b : String) (hb : b ≠ "") : path.Join ["", b] = path.Clean b := by
  simp [path.Join, List.dropWhile, hb, joinSlash]

theorem Join_empty_empty : path.Join ["", ""] = "" := by
  simp [path.Join, List.dropWhile]

/-- A two-element join is empty or a cleaned path. -/
theorem Join_two_cases (a b : String) :
    (path.Join [a, b] = "" ∧ a = "" ∧ b = "") ∨ ∃ u, path.Join [a, b] = path.Clean u := by
  by_cases ha : a = ""
  · by_cases hb : b = ""
    · left; subst ha; subst hb; exact ⟨Join_empty_empty, rfl, rfl⟩
    · right; subst ha; exact ⟨b, Join_empty_left b hb⟩
  · right; exact ⟨_, Join_cons_ne a b ha⟩

/-- The elements of a path joined with one more name. -/
theorem cleanStack_child (p x : String) (hp : p ≠ "") (hx : isName x = true)
    (hsf : slashFree x) :
    cleanStack (String.mk (p.data ++ '/' :: x.data)) = x :: cleanStack p := by
  rw [cleanStack_append p hp, splitSlash_of_slashFree x hsf]
  simp [cleanStep_name _ _ x hx]

/-- The rules file of the base directory with an empty tenant is the rules file
directly in the base directory. -/
theorem Join_Join_empty (a x : String) (hx : isName x = true) (hsf : slashFree x) :
    path.Join [path.Join [a, ""], x] = path.Join [a, x] := by
  have hxne : x ≠ "" := by
    intro h; subst h; simp [isName] at hx
  by_cases ha : a = ""
  · subst ha; rw [Join_empty_empty]
  · rw [Join_empty_right a ha, Join_cons_ne _ _ (Clean_ne_empty a), Join_cons_ne a x ha]
    apply Clean_congr
    · rw [isRooted_append _ (Clean_ne_empty a), isRooted_append a ha, isRooted_Clean]
    · rw [cleanStack_child _ x (Clean_ne_empty a) hx hsf, cleanStack_child a x ha hx hsf,
        cleanStack_Clean]

end RuleSyncer

namespace RuleSyncer

/-! ## Lookups in related states -/

theorem FS.ext_node {a b : FS} (hc : a.cwd = b.cwd) (hn : ∀ q, a.node q = b.node q) : a = b := by
  obtain ⟨c1, n1⟩ := a
  obtain ⟨c2, n2⟩ := b
  simp only at hc hn
  subst hc
  have : n1 = n2 := funext hn
  subst this
  rfl

theorem lookup_nil (fs : FS) : fs.lookup [] = some Node.dir := by
  simp [FS.lookup]

theorem lookup_ne_nil (fs : FS) {q : List String} (hq : q ≠ []) : fs.lookup q = fs.node q := by
  simp [FS.lookup, hq]

theorem ne_nil_of_lookup_ne_dir {fs : FS} {t : List String}
    (h : fs.lookup t ≠ some Node.dir) : t ≠ [] := by
  intro ht; subst ht; exact h (lookup_nil fs)

theorem lookup_set_self (fs : FS) {t : List String} (ht : t ≠ []) (n : Node) :
    (fs.set t n).lookup t = some n := by
  simp [FS.lookup, FS.set, ht]

theorem lookup_set_ne (fs : FS) (t : List String) (n : Node) {q : List String} (hq : q ≠ t) :
    (fs.set t n).lookup q = fs.lookup q := by
  simp [FS.lookup, FS.set, hq]

theorem checkDir_ok_iff (fs : FS) (t : List String) :
    checkDir fs t = .ok () ↔ fs.lookup t = some Node.dir := by
  unfold checkDir
  split <;> simp_all

theorem checkDir_mono {a b : FS} (h : DirLE a b) {t : List String}
    (ht : checkDir a t = .ok ()) : checkDir b t = .ok () :=
  (checkDir_ok_iff b t).2 (h t ((checkDir_ok_iff a t).1 ht))

theorem DirLE_refl (a : FS) : DirLE a a := fun _ h => h

theorem DirLE_trans {a b c : FS} (h1 : DirLE a b) (h2 : DirLE b c) : DirLE a c :=
  fun v h => h2 v (h1 v h)

/-- A lookup that succeeds keeps succeeding, with the same target, when no
directory is lost. -/
theorem walkLast_mono {a b : FS} (h : DirLE a b) (cs : List String) :
    ∀ (cur t : List String), walkLast a cur cs = .ok t → walkLast b cur cs = .ok t := by
  induction cs with
  | nil => intro cur t ht; simpa [walkLast] using ht
  | cons c cs ih =>
    intro cur t ht
    cases cs with
    | nil => simpa [walkLast] using ht
    | cons c2 cs2 =>
      simp only [walkLast] at ht ⊢
      cases hc : checkDir a (stepTarget cur c) with
      | error e => rw [hc] at ht; simp at ht
      | ok u =>
        rw [hc] at ht
        rw [checkDir_mono h hc]
        exact ih _ _ ht

theorem resolve_mono {a b : FS} (hc : a.cwd = b.cwd) (h : DirLE a b) {p : String}
    {t : List String} (ht : resolve a p = .ok t) : resolve b p = .ok t := by
  unfold resolve at ht ⊢
  by_cases hp : p = ""
  · simp [hp] at ht
  · simp only [hp, if_false] at ht ⊢
    rw [← hc]
    exact walkLast_mono h _ _ _ ht

theorem DirLE_set_dir {fs : FS} {t : List String} (ht : fs.lookup t = none) :
    DirLE fs (fs.set t Node.dir) := by
  intro v hv
  have : v ≠ t := by intro e; subst e; rw [ht] at hv; simp at hv
  rw [lookup_set_ne fs t _ this]; exact hv

theorem DirLE_set_file {fs : FS} {t : List String} (d : String)
    (ht : fs.lookup t ≠ some Node.dir) : DirLE fs (fs.set t (Node.file d)) := by
  intro v hv
  have : v ≠ t := by intro e; subst e; exact ht hv
  rw [lookup_set_ne fs t _ this]; exact hv

theorem DirLE_of_set_file {fs : FS} {t : List String} (d : String) (ht : t ≠ []) :
    DirLE (fs.set t (Node.file d)) fs := by
  intro v hv
  by_cases e : v = t
  · subst e; rw [lookup_set_self fs ht] at hv; simp at hv
  · rwa [lookup_set_ne fs t _ e] at hv

theorem DirLE_of_removeTree (fs : FS) (t : List String) : DirLE (fs.removeTree t) fs := by
  intro v hv
  by_cases hv0 : v = []
  · subst hv0; exact lookup_nil fs
  · rw [lookup_ne_nil _ hv0] at hv ⊢
    simp only [FS.removeTree] at hv
    split at hv
    · simp at hv
    · exact hv

theorem DirLE_of_removeBelow (fs : FS) (t : List String) : DirLE (fs.removeBelow t) fs := by
  intro v hv
  by_cases hv0 : v = []
  · subst hv0; exact lookup_nil fs
  · rw [lookup_ne_nil _ hv0] at hv ⊢
    simp only [FS.removeBelow] at hv
    split at hv
    · simp at hv
    · exact hv

/-! ## The child of a cleaned path -/

theorem stepTarget_name (cur : List String) (x : String) (hx : isName x = true) :
    stepTarget cur x = cur ++ [x] := by
  simp [isName] at hx
  simp [stepTarget, hx]

theorem stepTarget_start (cur : List String) (r : Bool) : stepTarget cur (startElem r) = cur := by
  cases r <;> simp [stepTarget, startElem]

theorem walkLast_snoc_name (fs : FS) (x : String) (hx : isName x = true) (cs : List String) :
    ∀ cur, cs ≠ [] → walkLast fs cur (cs ++ [x]) = enterDir fs x (walkLast fs cur cs) := by
  induction cs with
  | nil => intro cur h; exact absurd rfl h
  | cons c cs ih =>
    intro cur _
    cases cs with
    | nil =>
      simp only [List.cons_append, List.nil_append, walkLast, enterDir]
      cases checkDir fs (stepTarget cur c) with
      | error e => rfl
      | ok u => simp [stepTarget_name _ x hx]
    | cons c2 cs2 =>
      simp only [List.cons_append, walkLast]
      cases checkDir fs (stepTarget cur c) with
      | error e => rfl
      | ok u =>
        have := ih (stepTarget cur c) (by simp)
        simpa using this

theorem resolve_Clean (fs : FS) (s : String) :
    resolve fs (path.Clean s)
      = walkLast fs (if isRooted s then [] else fs.cwd)
          (startElem (isRooted s)
            :: (if cleanElems s = [] then [startElem (isRooted s)] else cleanElems s)) := by
  unfold resolve
  rw [if_neg (Clean_ne_empty s), isRooted_Clean, pathElems_Clean]

/-- The path of a name below a cleaned path leads through the directory the
cleaned path names, to its child of that name. -/
theorem resolve_child (fs : FS) (p x : String) (hp : path.Clean p = p)
    (hx : isName x = true) (hsf : slashFree x) :
    resolve fs (path.Join [p, x]) = enterDir fs x (resolve fs p) := by
  have hpne : p ≠ "" := by rw [← hp]; exact Clean_ne_empty p
  rw [Join_cons_ne p x hpne]
  have h2 : resolve fs p = resolve fs (path.Clean p) := by rw [hp]
  rw [h2, resolve_Clean, resolve_Clean, isRooted_append p hpne]
  have h3 : cleanElems (String.mk (p.data ++ '/' :: x.data)) = cleanElems p ++ [x] := by
    unfold cleanElems
    rw [cleanStack_child p x hpne hx hsf]
    simp
  rw [h3]
  have h4 : cleanElems p ++ [x] ≠ [] := by simp
  rw [if_neg h4]
  by_cases he : cleanElems p = []
  · rw [he]
    simp only [if_true, List.nil_append, walkLast, stepTarget_start]
    cases hc : checkDir fs (if isRooted p then [] else fs.cwd) with
    | error e => simp [enterDir]
    | ok u => simp [enterDir, hc, stepTarget_name _ x hx]
  · rw [if_neg he]
    have := walkLast_snoc_name fs x hx (startElem (isRooted p) :: cleanElems p)
      (if isRooted p then [] else fs.cwd) (by simp)
    simpa using this

end RuleSyncer

namespace RuleSyncer

/-! ## The three filesystem calls, case by case -/

theorem Mkdir_cases (fs : FS) (p : String) :
    (∃ e, os.Mkdir fs p = (fs, some e) ∧ ∀ t, resolve fs p = .ok t → fs.lookup t ≠ none)
    ∨ (∃ t, resolve fs p = .ok t ∧ fs.lookup t = none
        ∧ os.Mkdir fs p = (fs.set t Node.dir, none)) := by
  unfold os.Mkdir
  cases hr : resolve fs p with
  | error e => left; exact ⟨_, rfl, by intro t ht; simp at ht⟩
  | ok t =>
    cases hl : fs.lookup t with
    | none => right; exact ⟨t, rfl, hl, by simp [hl]⟩
    | some n =>
      left
      refine ⟨_, by simp [hl]; rfl, ?_⟩
      intro t2 ht2
      simp at ht2
      subst ht2
      simp [hl]

theorem WriteFile_cases (fs : FS) (p d : String) :
    (∃ e, ioutil.WriteFile fs p d = (fs, some e))
    ∨ (∃ f, resolve fs p = .ok f ∧ fs.lookup f ≠ some Node.dir
        ∧ ioutil.WriteFile fs p d = (fs.set f (Node.file d), none)) := by
  unfold ioutil.WriteFile
  cases hr : resolve fs p with
  | error e => left; exact ⟨_, rfl⟩
  | ok t =>
    cases hl : fs.lookup t with
    | none => right; exact ⟨t, rfl, by simp [hl], by simp [hl]⟩
    | some n =>
      cases n with
      | dir => left; exact ⟨_, by simp [hl]; rfl⟩
      | file d0 => right; exact ⟨t, rfl, by simp [hl], by simp [hl]⟩

theorem RemoveAll_cases (fs : FS) (p : String) :
    (os.RemoveAll fs p).1 = fs
    ∨ (∃ t, resolve fs p = .ok t ∧ fs.lookup t ≠ none ∧ lastElem p ≠ "."
        ∧ (((t = [] ∨ lastElem p = "..") ∧ (os.RemoveAll fs p).1 = fs.removeBelow t)
          ∨ (t ≠ [] ∧ lastElem p ≠ ".." ∧ os.RemoveAll fs p = (fs.removeTree t, none)))) := by
  unfold os.RemoveAll
  by_cases h1 : p = ""
  · left; simp [h1]
  · rw [if_neg h1]
    by_cases h2 : lastElem p = "."
    · left; simp [h2]
    · rw [if_neg h2]
      cases hr : resolve fs p with
      | error e => left; cases e <;> rfl
      | ok t =>
        cases hl : fs.lookup t with
        | none => left; simp [hl]
        | some n =>
          right
          refine ⟨t, rfl, by simp [hl], h2, ?_⟩
          by_cases h3 : t = []
          · left; exact ⟨Or.inl h3, by subst h3; simp [lookup_nil]⟩
          · by_cases h4 : lastElem p = ".."
            · left; exact ⟨Or.inr h4, by simp [hl, h3, h4]⟩
            · right; exact ⟨h3, h4, by simp [hl, h3, h4]⟩

theorem Mkdir_cwd (fs : FS) (p : String) : (os.Mkdir fs p).1.cwd = fs.cwd := by
  rcases Mkdir_cases fs p with ⟨e, h, _⟩ | ⟨t, _, _, h⟩ <;> rw [h]
  rfl

theorem WriteFile_cwd (fs : FS) (p d : String) : (ioutil.WriteFile fs p d).1.cwd = fs.cwd := by
  rcases WriteFile_cases fs p d with ⟨e, h⟩ | ⟨t, _, _, h⟩ <;> rw [h]
  rfl

theorem RemoveAll_cwd (fs : FS) (p : String) : (os.RemoveAll fs p).1.cwd = fs.cwd := by
  rcases RemoveAll_cases fs p with h | ⟨t, _, _, _, ⟨_, h⟩ | ⟨_, _, h⟩⟩ <;> rw [h] <;> rfl

theorem Mkdir_DirLE (fs : FS) (p : String) : DirLE fs (os.Mkdir fs p).1 := by
  rcases Mkdir_cases fs p with ⟨e, h, _⟩ | ⟨t, _, hl, h⟩ <;> rw [h]
  · exact DirLE_refl fs
  · exact DirLE_set_dir hl

theorem WriteFile_DirLE (fs : FS) (p d : String) : DirLE fs (ioutil.WriteFile fs p d).1 := by
  rcases WriteFile_cases fs p d with ⟨e, h⟩ | ⟨t, _, hl, h⟩ <;> rw [h]
  · exact DirLE_refl fs
  · exact DirLE_set_file d hl

theorem WriteFile_DirGE (fs : FS) (p d : String) : DirLE (ioutil.WriteFile fs p d).1 fs := by
  rcases WriteFile_cases fs p d with ⟨e, h⟩ | ⟨t, _, hl, h⟩ <;> rw [h]
  · exact DirLE_refl fs
  · exact DirLE_of_set_file d (ne_nil_of_lookup_ne_dir hl)

theorem RemoveAll_DirGE (fs : FS) (p : String) : DirLE (os.RemoveAll fs p).1 fs := by
  rcases RemoveAll_cases fs p with h | ⟨t, _, _, _, ⟨_, h⟩ | ⟨_, _, h⟩⟩ <;> rw [h]
  · exact DirLE_refl fs
  · exact DirLE_of_removeBelow fs t
  · exact DirLE_of_removeTree fs t

/-- What was written can be read back. -/
theorem WriteFile_read (fs : FS) (p d : String) (h : (ioutil.WriteFile fs p d).2 = none) :
    readFile (ioutil.WriteFile fs p d).1 p = some d := by
  rcases WriteFile_cases fs p d with ⟨e, he⟩ | ⟨f, hr, hl, hw⟩
  · rw [he] at h; simp at h
  · rw [hw]
    have hf : f ≠ [] := ne_nil_of_lookup_ne_dir hl
    have hr2 : resolve (fs.set f (Node.file d)) p = .ok f :=
      @resolve_mono fs (fs.set f (Node.file d)) rfl (DirLE_set_file d hl) p f hr
    simp [readFile, stat, hr2, lookup_set_self fs hf]

/-- Writing the same data to the same path a second time changes nothing. -/
theorem WriteFile_idem (fs : FS) (p d : String) :
    (ioutil.WriteFile (ioutil.WriteFile fs p d).1 p d).1 = (ioutil.WriteFile fs p d).1 := by
  rcases WriteFile_cases fs p d with ⟨e, he⟩ | ⟨f, hr, hl, hw⟩
  · rw [he]; simp only; rw [he]
  · rw [hw]
    have hf : f ≠ [] := ne_nil_of_lookup_ne_dir hl
    have hr2 : resolve (fs.set f (Node.file d)) p = .ok f :=
      @resolve_mono fs (fs.set f (Node.file d)) rfl (DirLE_set_file d hl) p f hr
    simp only [ioutil.WriteFile, hr2, lookup_set_self fs hf]
    apply FS.ext_node
    · rfl
    intro q
    simp only [FS.set]
    split <;> rfl

end RuleSyncer

namespace RuleSyncer

/-! ## The handler's steps -/

theorem dataKey_isName : isName dataKey = true := by decide

theorem dataKey_slashFree : slashFree dataKey := by
  simp [slashFree, dataKey]

theorem addRule_eq (h : handler) (cm : ConfigMap) (fs : FS) :
    h.addRule cm fs
      = ioutil.WriteFile (os.Mkdir fs (h.tenantDir cm)).1 (h.rulesFile cm)
          (mapIndex cm.Data dataKey) := rfl

theorem deleteRule_eq (h : handler) (cm : ConfigMap) (fs : FS) :
    h.deleteRule cm fs = os.RemoveAll fs (h.tenantDir cm) := rfl

theorem OnAdd_fst (h : handler) (cm : ConfigMap) (fs : FS) :
    (h.OnAdd cm fs).1 = (h.addRule cm fs).1 := by
  unfold handler.OnAdd
  split <;> simp_all

theorem OnDelete_fst (h : handler) (cm : ConfigMap) (fs : FS) :
    (h.OnDelete cm fs).1 = (h.deleteRule cm fs).1 := by
  unfold handler.OnDelete
  split <;> simp_all

/-- A tenant directory path that can be looked up is a cleaned path. -/
theorem tenantDir_clean (h : handler) (cm : ConfigMap) (hne : h.tenantDir cm ≠ "") :
    path.Clean (h.tenantDir cm) = h.tenantDir cm := by
  rcases Join_two_cases h.BaseDir (mapIndex cm.Labels labelKey) with ⟨h0, _⟩ | ⟨u, hu⟩
  · exact absurd h0 hne
  · show path.Clean (path.Join _) = path.Join _
    rw [hu, Clean_idem]

theorem resolve_ne_empty {fs : FS} {p : String} {t : List String}
    (h : resolve fs p = .ok t) : p ≠ "" := by
  intro hp; subst hp; simp [resolve] at h

/-- The rules file is the child `rules.yaml` of the tenant directory. -/
theorem resolve_rulesFile (h : handler) (cm : ConfigMap) (fs : FS)
    (hne : h.tenantDir cm ≠ "") :
    resolve fs (h.rulesFile cm) = enterDir fs dataKey (resolve fs (h.tenantDir cm)) :=
  resolve_child fs _ dataKey (tenantDir_clean h cm hne) dataKey_isName dataKey_slashFree

theorem WriteFile_ok {fs : FS} {p : String} {f : List String} (d : String)
    (hr : resolve fs p = .ok f) (hl : fs.lookup f ≠ some Node.dir) :
    ioutil.WriteFile fs p d = (fs.set f (Node.file d), none) := by
  rcases WriteFile_cases fs p d with ⟨e, he⟩ | ⟨f2, hr2, _, hw⟩
  · exfalso
    unfold ioutil.WriteFile at he
    rw [hr] at he
    cases hlk : fs.lookup f with
    | none => simp [hlk] at he
    | some n =>
      cases n with
      | dir => exact hl hlk
      | file d0 => simp [hlk] at he
  · rw [hr] at hr2
    simp at hr2
    subst hr2
    exact hw

theorem snoc_ne_self (t : List String) (x : String) : t ++ [x] ≠ t := by
  intro h
  have := congrArg List.length h
  simp at this

/-- When the tenant directory is there or can be made, and the rules file name
is not taken by a directory, `addRule` succeeds and leaves `addState`. -/
theorem addRule_ok (h : handler) (cm : ConfigMap) (fs : FS) (t : List String)
    (hres : resolve fs (h.tenantDir cm) = .ok t)
    (hdir : fs.lookup t = none ∨ fs.lookup t = some Node.dir)
    (hfile : fs.lookup (t ++ [dataKey]) ≠ some Node.dir) :
    h.addRule cm fs = (addState fs t (mapIndex cm.Data dataKey), none) := by
  have hne := resolve_ne_empty hres
  rw [addRule_eq]
  rcases Mkdir_cases fs (h.tenantDir cm) with ⟨e, hm, hex⟩ | ⟨t2, hr2, hl2, hm⟩
  · have hd : fs.lookup t = some Node.dir := by
      rcases hdir with h1 | h1
      · exact absurd h1 (hex t hres)
      · exact h1
    rw [hm]
    have hrf : resolve fs (h.rulesFile cm) = .ok (t ++ [dataKey]) := by
      rw [resolve_rulesFile h cm fs hne, hres]
      simp [enterDir, (checkDir_ok_iff fs t).2 hd]
    rw [WriteFile_ok _ hrf hfile]
    simp [addState, hd]
  · rw [hres] at hr2
    simp at hr2
    subst hr2
    rw [hm]
    have ht : t ≠ [] := ne_nil_of_lookup_ne_dir (by rw [hl2]; simp)
    have hres1 : resolve (fs.set t Node.dir) (h.tenantDir cm) = .ok t :=
      @resolve_mono fs (fs.set t Node.dir) rfl (DirLE_set_dir hl2) _ _ hres
    have hrf : resolve (fs.set t Node.dir) (h.rulesFile cm) = .ok (t ++ [dataKey]) := by
      rw [resolve_rulesFile h cm _ hne, hres1]
      simp [enterDir, (checkDir_ok_iff _ t).2 (lookup_set_self fs ht Node.dir)]
    have hl : (fs.set t Node.dir).lookup (t ++ [dataKey]) ≠ some Node.dir := by
      rw [lookup_set_ne fs t _ (snoc_ne_self t dataKey)]; exact hfile
    rw [WriteFile_ok _ hrf hl]
    simp [addState, hl2]

theorem Mkdir_noop {fs : FS} {p : String} (h : NoNew fs p) : (os.Mkdir fs p).1 = fs := by
  rcases Mkdir_cases fs p with ⟨e, hm, _⟩ | ⟨t, hr, hl, _⟩
  · rw [hm]
  · exact absurd hl (h t hr)

theorem NoNew_Mkdir (fs : FS) (p : String) : NoNew (os.Mkdir fs p).1 p := by
  rcases Mkdir_cases fs p with ⟨e, hm, hex⟩ | ⟨t, hr, hl, hm⟩
  · rw [hm]; exact hex
  · rw [hm]
    intro t2 ht2
    have ht : t ≠ [] := ne_nil_of_lookup_ne_dir (by rw [hl]; simp)
    have h1 : resolve (fs.set t Node.dir) p = .ok t :=
      @resolve_mono fs (fs.set t Node.dir) rfl (DirLE_set_dir hl) _ _ hr
    rw [h1] at ht2
    simp at ht2
    subst ht2
    rw [lookup_set_self fs ht]
    simp

theorem NoNew_WriteFile {fs : FS} {p : String} (h : NoNew fs p) (q d : String) :
    NoNew (ioutil.WriteFile fs q d).1 p := by
  intro t ht
  have h1 : resolve fs p = .ok t :=
    resolve_mono (WriteFile_cwd fs q d) (WriteFile_DirGE fs q d) ht
  have h2 := h t h1
  rcases WriteFile_cases fs q d with ⟨e, hw⟩ | ⟨f, _, hl, hw⟩
  · rw [hw]; exact h2
  · rw [hw]
    by_cases e : t = f
    · subst e
      rw [lookup_set_self fs (ne_nil_of_lookup_ne_dir hl)]
      simp
    · rw [lookup_set_ne fs f _ e]; exact h2

/-- Adding the same rule twice leaves the state of adding it once. -/
theorem addRule_idem (h : handler) (cm : ConfigMap) (fs : FS) :
    (h.addRule cm (h.addRule cm fs).1).1 = (h.addRule cm fs).1 := by
  have hnn : NoNew (h.addRule cm fs).1 (h.tenantDir cm) := by
    rw [addRule_eq]
    exact NoNew_WriteFile (NoNew_Mkdir fs _) _ _
  rw [addRule_eq h cm (h.addRule cm fs).1, Mkdir_noop hnn, addRule_eq]
  exact WriteFile_idem _ _ _

end RuleSyncer

namespace RuleSyncer

/-! ## Removal -/

theorem walkLast_last (fs : FS) (cs : List String) :
    ∀ cur t, cs ≠ [] → walkLast fs cur cs = .ok t → ∃ c, t = stepTarget c (cs.getLastD "") := by
  induction cs with
  | nil => intro cur t h; exact absurd rfl h
  | cons c cs ih =>
    intro cur t _ ht
    cases cs with
    | nil =>
      simp [walkLast] at ht
      exact ⟨cur, by simp [ht]⟩
    | cons c2 cs2 =>
      simp only [walkLast] at ht
      cases hc : checkDir fs (stepTarget cur c) with
      | error e => rw [hc] at ht; simp at ht
      | ok u =>
        rw [hc] at ht
        obtain ⟨c3, h3⟩ := ih (stepTarget cur c) t (by simp) ht
        exact ⟨c3, by simpa using h3⟩

theorem pathElems_getLastD (p : String) : (pathElems p).getLastD "" = lastElem p := by
  unfold pathElems lastElem
  cases hs : splitSlash p.data with
  | nil => exact absurd hs (splitSlash_ne_nil _)
  | cons w ws => split <;> simp

theorem pathElems_ne_nil (p : String) : pathElems p ≠ [] := by
  unfold pathElems
  split
  · exact splitSlash_ne_nil _
  · simp

/-- A path whose last element is an ordinary name never names the root. -/
theorem resolve_name_ne_nil {fs : FS} {p : String} {t : List String}
    (hname : isName (lastElem p) = true) (h : resolve fs p = .ok t) : t ≠ [] := by
  unfold resolve at h
  by_cases hp : p = ""
  · simp [hp] at h
  · simp only [hp, if_false] at h
    obtain ⟨c, hc⟩ := walkLast_last fs _ _ _ (pathElems_ne_nil p) h
    rw [pathElems_getLastD, stepTarget_name _ _ hname] at hc
    rw [hc]; simp

theorem isName_ne {x : String} (h : isName x = true) : x ≠ "" ∧ x ≠ "." ∧ x ≠ ".." := by
  simp [isName] at h
  exact ⟨h.1.1, h.1.2, h.2⟩

theorem lookup_removeTree_self (fs : FS) {t : List String} (ht : t ≠ []) :
    (fs.removeTree t).lookup t = none := by
  simp [FS.lookup, FS.removeTree, ht]

theorem stat_eq_none_of (fs : FS) (p : String)
    (h : ∀ t, resolve fs p = .ok t → fs.lookup t = none) : stat fs p = none := by
  unfold stat
  cases hr : resolve fs p with
  | error e => rfl
  | ok t => exact h t hr

/-- After `os.RemoveAll` of a path that ends in an ordinary name, the path
names nothing. -/
theorem RemoveAll_gone (fs : FS) (p : String) (hname : isName (lastElem p) = true) :
    stat (os.RemoveAll fs p).1 p = none := by
  obtain ⟨_, hn1, hn2⟩ := isName_ne hname
  apply stat_eq_none_of
  intro t ht
  have ht0 : resolve fs p = .ok t :=
    resolve_mono (RemoveAll_cwd fs p) (RemoveAll_DirGE fs p) ht
  have htne : t ≠ [] := resolve_name_ne_nil hname ht0
  rcases RemoveAll_cases fs p with h | ⟨t2, hr2, hl2, _, ⟨hpin, _⟩ | ⟨_, _, h⟩⟩
  · rw [h] at ht ⊢
    have hp : p ≠ "" := resolve_ne_empty ht0
    unfold os.RemoveAll at h
    rw [if_neg hp, if_neg hn1, ht0] at h
    simp only at h
    cases hl : fs.lookup t with
    | none => rfl
    | some n =>
      exfalso
      rw [hl] at h
      simp only [htne, hn2, if_false] at h
      have := congrArg (fun s => FS.lookup s t) h
      simp only [lookup_removeTree_self fs htne, hl] at this
      exact absurd this (by simp)
  · rw [ht0] at hr2
    simp at hr2
    subst hr2
    rcases hpin with h1 | h1
    · exact absurd h1 htne
    · exact absurd h1 hn2
  · rw [ht0] at hr2
    simp at hr2
    subst hr2
    rw [h]
    exact lookup_removeTree_self fs htne

/-- After `os.RemoveAll` of an existing path that ends in an ordinary name,
no node is left at or below the place it named. -/
theorem RemoveAll_below (fs : FS) (p : String) (hname : isName (lastElem p) = true)
    (t q : List String) (hr : resolve fs p = .ok t) (hl : fs.lookup t ≠ none)
    (hq : t.isPrefixOf q = true) : (os.RemoveAll fs p).1.node q = none := by
  obtain ⟨_, hn1, hn2⟩ := isName_ne hname
  have htne : t ≠ [] := resolve_name_ne_nil hname hr
  have hp : p ≠ "" := resolve_ne_empty hr
  unfold os.RemoveAll
  rw [if_neg hp, if_neg hn1, hr]
  simp only
  cases hlk : fs.lookup t with
  | none => exact absurd hlk hl
  | some n =>
    simp only [htne, hn2, if_false, FS.removeTree, hq, if_true]

/-- Removing what `os.Stat` reports as not existing succeeds and changes
nothing. -/
theorem RemoveAll_absent (fs : FS) (p : String) (hdot : lastElem p ≠ ".")
    (h : statErrno fs p = some Errno.ENOENT) : os.RemoveAll fs p = (fs, none) := by
  unfold os.RemoveAll
  by_cases hp : p = ""
  · simp [hp]
  · rw [if_neg hp, if_neg hdot]
    unfold statErrno at h
    cases hr : resolve fs p with
    | error e =>
      rw [hr] at h
      simp at h
      subst h
      rfl
    | ok t =>
      rw [hr] at h
      simp only at h
      cases hl : fs.lookup t with
      | none => simp [hl]
      | some n => simp [hl] at h

theorem removeBelow_idem (fs : FS) (t : List String) :
    (fs.removeBelow t).removeBelow t = fs.removeBelow t := by
  apply FS.ext_node
  · rfl
  · intro q
    simp only [FS.removeBelow]
    split <;> rfl

/-- Removing the same path twice leaves the state of removing it once. -/
theorem RemoveAll_idem (fs : FS) (p : String) :
    (os.RemoveAll (os.RemoveAll fs p).1 p).1 = (os.RemoveAll fs p).1 := by
  rcases RemoveAll_cases fs p with h | ⟨t, hr, hl, hdot, ⟨hpin, h⟩ | ⟨htne, hdd, h⟩⟩
  · rw [h, h]
  · rw [h]
    rcases RemoveAll_cases (fs.removeBelow t) p with h2 | ⟨t2, hr2, _, _, ⟨_, h2⟩ | ⟨h3, h4, _⟩⟩
    · exact h2
    · have : resolve fs p = .ok t2 :=
        @resolve_mono (fs.removeBelow t) fs rfl (DirLE_of_removeBelow fs t) _ _ hr2
      rw [hr] at this
      simp at this
      subst this
      rw [h2, removeBelow_idem]
    · have : resolve fs p = .ok t2 :=
        @resolve_mono (fs.removeBelow t) fs rfl (DirLE_of_removeBelow fs t) _ _ hr2
      rw [hr] at this
      simp at this
      subst this
      rcases hpin with h5 | h5
      · exact absurd h5 h3
      · exact absurd h5 h4
  · rw [h]
    rcases RemoveAll_cases (fs.removeTree t) p with h2 | ⟨t2, hr2, hl2, _⟩
    · exact h2
    · have : resolve fs p = .ok t2 :=
        @resolve_mono (fs.removeTree t) fs rfl (DirLE_of_removeTree fs t) _ _ hr2
      rw [hr] at this
      simp at this
      subst this
      exact absurd (lookup_removeTree_self fs htne) hl2

/-- Below a cleaned path that names nothing, no name names anything. -/
theorem stat_child_none (fs : FS) (p x : String) (hp : path.Clean p = p)
    (hx : isName x = true) (hsf : slashFree x) (h : stat fs p = none) :
    stat fs (path.Join [p, x]) = none := by
  unfold stat at h ⊢
  rw [resolve_child fs p x hp hx hsf]
  cases hr : resolve fs p with
  | error e => rfl
  | ok t =>
    rw [hr] at h
    simp only at h
    simp [enterDir, checkDir, h]

theorem readFile_none_of_stat {fs : FS} {p : String} (h : stat fs p = none) :
    readFile fs p = none := by
  simp [readFile, h]

theorem pathExists_false_of_stat {fs : FS} {p : String} (h : stat fs p = none) :
    pathExists fs p = false := by
  simp [pathExists, h]

theorem Join_clean (a b : String) (ha : a ≠ "") : path.Clean (path.Join [a, b]) = path.Join [a, b] := by
  rw [Join_cons_ne a b ha, Clean_idem]

end RuleSyncer

namespace RuleSyncer

theorem OnUpdate_fst_tenant (h : handler) (oldCm newCm : ConfigMap) (fs : FS)
    (hten : mapIndex oldCm.Labels labelKey ≠ mapIndex newCm.Labels labelKey) :
    (h.OnUpdate oldCm newCm fs).1 = (h.deleteRule oldCm (h.addRule newCm fs).1).1 := by
  simp [handler.OnUpdate, hten]

theorem OnUpdate_fst_data (h : handler) (oldCm newCm : ConfigMap) (fs : FS)
    (hten : mapIndex oldCm.Labels labelKey = mapIndex newCm.Labels labelKey)
    (hdat : mapIndex oldCm.Data dataKey ≠ mapIndex newCm.Data dataKey) :
    (h.OnUpdate oldCm newCm fs).1 = (h.addRule newCm fs).1 := by
  simp [handler.OnUpdate, hten, hdat]

theorem addRule_writes_payload (h : handler) (cm : ConfigMap) (fs : FS) (t : List String)
    (hres : resolve fs (h.tenantDir cm) = .ok t)
    (hdir : fs.lookup t = none ∨ fs.lookup t = some Node.dir)
    (hfile : fs.lookup (t ++ [dataKey]) ≠ some Node.dir) :
    readFile (h.addRule cm fs).1 (h.rulesFile cm) = some (mapIndex cm.Data dataKey) := by
  rw [addRule_eq]
  apply WriteFile_read
  rw [← addRule_eq, addRule_ok h cm fs t hres hdir hfile]

/-- The cleaning and joining of paths on the cases of the Go library's own test
tables that matter here. -/
theorem Clean_Join_examples :
    path.Clean "" = "." ∧ path.Clean "abc//def//ghi" = "abc/def/ghi"
      ∧ path.Clean "/abc/def/../../.." = "/" ∧ path.Clean "abc/def/../../.." = ".."
      ∧ path.Clean "abc/../../././../def" = "../../def" ∧ path.Clean "/./abc/def/" = "/abc/def"
      ∧ path.Join ["a", "b"] = "a/b" ∧ path.Join ["a", ""] = "a" ∧ path.Join ["", "b"] = "b"
      ∧ path.Join ["/", "a"] = "/a" ∧ path.Join ["/", ""] = "/" ∧ path.Join ["a/", "b"] = "a/b"
      ∧ path.Join ["", ""] = "" := by
  decide

/-! ## The claims -/

/-- C1 (amended): for every object with tenant `T` and payload `P` and every
state in which `path.Join(BaseDir, T)` can be looked up (its parent directories
exist) and is either missing or a directory, and in which `rules.yaml` below it
is not a directory, after `OnAdd` the rules file exists and holds `P`. -/
theorem OnAdd_writes_payload (h : handler) (cm : ConfigMap) (fs : FS) (t : List String)
    (hres : resolve fs (h.tenantDir cm) = .ok t)
    (hdir : fs.lookup t = none ∨ fs.lookup t = some Node.dir)
    (hfile : fs.lookup (t ++ [dataKey]) ≠ some Node.dir) :
    readFile (h.OnAdd cm fs).1 (h.rulesFile cm) = some (mapIndex cm.Data dataKey) := by
  rw [OnAdd_fst]
  exact addRule_writes_payload h cm fs t hres hdir hfile

theorem OnAdd_writes_payload_witness :
    resolve fsBase (hDefault.tenantDir (mkCm "team-a" "groups: []"))
        = .ok ["etc", "loki", "rules", "team-a"]
      ∧ readFile (hDefault.OnAdd (mkCm "team-a" "groups: []") fsBase).1
          "/etc/loki/rules/team-a/rules.yaml" = some "groups: []" :=
  ⟨rfl, OnAdd_writes_payload hDefault (mkCm "team-a" "groups: []") fsBase
    ["etc", "loki", "rules", "team-a"] rfl (Or.inl (by decide)) (by decide)⟩

/-- C1 as stated fails: with the base directory present and empty, `OnAdd` of an
object whose tenant is `a/b` writes nothing, since `os.Mkdir` does not make the
missing parent `a` and the write then finds no directory. -/
theorem OnAdd_nested_tenant_no_file :
    isDir fsBase hDefault.BaseDir = true
      ∧ mapIndex (mkCm "a/b" "groups: []").Labels labelKey = "a/b"
      ∧ hDefault.rulesFile (mkCm "a/b" "groups: []") = "/etc/loki/rules/a/b/rules.yaml"
      ∧ readFile (hDefault.OnAdd (mkCm "a/b" "groups: []") fsBase).1
          (hDefault.rulesFile (mkCm "a/b" "groups: []")) = none := by
  decide

/-- C3 fails on the code: every error `addRule` returns comes from the write
(`open`), never from the directory creation, whose result is discarded
whatever it is.  With the base directory missing, `os.Mkdir` of the tenant
directory fails with `ENOENT`, not with `EEXIST`; `addRule` nevertheless
attempts the write, and the error it returns, which `OnAdd` logs, is the one of
the write.  With an empty base directory and tenant the directory creation
fails and the write succeeds. -/
theorem addRule_discards_mkdir_error :
    (∀ (h : handler) (cm : ConfigMap) (fs : FS) (e : PathError),
        (h.addRule cm fs).2 = some e → e.Op = "open")
      ∧ (os.Mkdir fsEmpty (hDefault.tenantDir (mkCm "t" "groups: []"))).2
        = some ⟨"mkdir", "/etc/loki/rules/t", Errno.ENOENT⟩
      ∧ (hDefault.addRule (mkCm "t" "groups: []") fsEmpty).2
        = some ⟨"open", "/etc/loki/rules/t/rules.yaml", Errno.ENOENT⟩
      ∧ (hDefault.OnAdd (mkCm "t" "groups: []") fsEmpty).2
        = [LogLine.err ⟨"open", "/etc/loki/rules/t/rules.yaml", Errno.ENOENT⟩]
      ∧ (os.Mkdir fsSrv (handler.tenantDir ⟨""⟩ (mkCm "" "groups: []"))).2
        = some ⟨"mkdir", "", Errno.ENOENT⟩
      ∧ (handler.addRule ⟨""⟩ (mkCm "" "groups: []") fsSrv).2 = none
      ∧ readFile (handler.addRule ⟨""⟩ (mkCm "" "groups: []") fsSrv).1 "rules.yaml"
        = some "groups: []" := by
  refine ⟨?_, by decide⟩
  intro h cm fs e he
  rw [addRule_eq] at he
  unfold ioutil.WriteFile at he
  split at he
  · simp at he; rw [← he]
  · split at he
    · simp at he; rw [← he]
    · simp at he

/-- C4: in an update that changes the tenant, `OnUpdate` is `os.RemoveAll` of
the old tenant directory applied to the state that `addRule(new)` has left,
with the write's error logged before the removal's.  The removal is real: an
old tenant directory whose path ends in an ordinary name does not exist
afterwards.  Whenever the write succeeds, the new rules file holds the new
payload in the very state the removal starts from; and when the removal then
fails leaving that state as it was, the new rules file exists after `OnUpdate`
and holds the new payload. -/
theorem OnUpdate_write_before_delete (h : handler) (oldCm newCm : ConfigMap) (fs : FS)
    (hten : mapIndex oldCm.Labels labelKey ≠ mapIndex newCm.Labels labelKey) :
    h.OnUpdate oldCm newCm fs
        = ((os.RemoveAll (h.addRule newCm fs).1 (h.tenantDir oldCm)).1,
            (h.addRule newCm fs).2.toList.map LogLine.err
              ++ (os.RemoveAll (h.addRule newCm fs).1 (h.tenantDir oldCm)).2.toList.map LogLine.err
              ++ [LogLine.msg ("update rules in " ++ newCm.Name)])
      ∧ (isName (lastElem (h.tenantDir oldCm)) = true →
          pathExists (h.OnUpdate oldCm newCm fs).1 (h.tenantDir oldCm) = false)
      ∧ ((h.addRule newCm fs).2 = none →
          readFile (h.addRule newCm fs).1 (h.rulesFile newCm)
              = some (mapIndex newCm.Data dataKey)
            ∧ ∀ e : PathError,
                os.RemoveAll (h.addRule newCm fs).1 (h.tenantDir oldCm)
                    = ((h.addRule newCm fs).1, some e) →
                readFile (h.OnUpdate oldCm newCm fs).1 (h.rulesFile newCm)
                  = some (mapIndex newCm.Data dataKey)) := by
  have hst : (h.OnUpdate oldCm newCm fs).1
      = (os.RemoveAll (h.addRule newCm fs).1 (h.tenantDir oldCm)).1 := by
    rw [OnUpdate_fst_tenant h oldCm newCm fs hten, deleteRule_eq]
  refine ⟨?_, ?_, ?_⟩
  · have hb : (mapIndex oldCm.Labels labelKey != mapIndex newCm.Labels labelKey) = true := by
      simpa using hten
    unfold handler.OnUpdate
    simp only [hb, Bool.not_true, Bool.and_false, Bool.false_eq_true, if_false, if_true,
      deleteRule_eq]
    cases (h.addRule newCm fs).2 <;>
      cases (os.RemoveAll (h.addRule newCm fs).1 (h.tenantDir oldCm)).2 <;> rfl
  · intro hname
    rw [hst]
    exact pathExists_false_of_stat (RemoveAll_gone _ _ hname)
  · intro hw
    have hread : readFile (h.addRule newCm fs).1 (h.rulesFile newCm)
        = some (mapIndex newCm.Data dataKey) := by
      rw [addRule_eq] at hw ⊢
      exact WriteFile_read _ _ _ hw
    refine ⟨hread, ?_⟩
    intro e hdel
    rw [hst, hdel]
    exact hread

theorem OnUpdate_write_before_delete_witness :
    (readFile (hHere.addRule (mkCm "t" "new") fsSrv).1 (hHere.rulesFile (mkCm "t" "new"))
        = some "new"
      ∧ readFile (hHere.OnUpdate (mkCm "" "old") (mkCm "t" "new") fsSrv).1
          (hHere.rulesFile (mkCm "t" "new")) = some "new")
    ∧ (readFile (hDefault.addRule (mkCm "./team-a" "new")
          (hDefault.deleteRule (mkCm "team-a" "old") fsTenant).1).1
          "/etc/loki/rules/team-a/rules.yaml" = some "new"
      ∧ readFile (hDefault.OnUpdate (mkCm "team-a" "old") (mkCm "./team-a" "new") fsTenant).1
          "/etc/loki/rules/team-a/rules.yaml" = none
      ∧ pathExists (hDefault.OnUpdate (mkCm "team-a" "old") (mkCm "./team-a" "new") fsTenant).1
          (hDefault.tenantDir (mkCm "team-a" "old")) = false) :=
  ⟨⟨((OnUpdate_write_before_delete hHere (mkCm "" "old") (mkCm "t" "new") fsSrv
        (by decide)).2.2 (by decide)).1,
      ((OnUpdate_write_before_delete hHere (mkCm "" "old") (mkCm "t" "new") fsSrv
        (by decide)).2.2 (by decide)).2 ⟨"RemoveAll", ".", Errno.EINVAL⟩ rfl⟩,
    by decide, by decide,
    (OnUpdate_write_before_delete hDefault (mkCm "team-a" "old") (mkCm "./team-a" "new")
      fsTenant (by decide)).2.1 (by decide)⟩

/-- C5: `OnAdd` is idempotent on the filesystem state: for every object and
every state, processing it twice in a row leaves the state of processing it
once. -/
theorem OnAdd_idempotent (h : handler) (cm : ConfigMap) (fs : FS) :
    (h.OnAdd cm (h.OnAdd cm fs).1).1 = (h.OnAdd cm fs).1 := by
  rw [OnAdd_fst, OnAdd_fst, addRule_idem]

/-- C8: when the payloads are equal and the tenant labels are equal (a missing
key reading as the empty string), `OnUpdate` performs no filesystem operation
and logs nothing: the state is returned as it was, whatever it holds. -/
theorem OnUpdate_unchanged_noop (h : handler) (oldCm newCm : ConfigMap) (fs : FS)
    (hdat : mapIndex oldCm.Data dataKey = mapIndex newCm.Data dataKey)
    (hten : mapIndex oldCm.Labels labelKey = mapIndex newCm.Labels labelKey) :
    h.OnUpdate oldCm newCm fs = (fs, []) := by
  simp [handler.OnUpdate, hdat, hten]

theorem OnUpdate_unchanged_noop_witness :
    readFile fsBase (hDefault.rulesFile (mkCm "" "groups: []")) = none
      ∧ hDefault.OnUpdate (mkCmNoLabel "groups: []") (mkCm "" "groups: []") fsBase
          = (fsBase, []) :=
  ⟨by decide, OnUpdate_unchanged_noop hDefault (mkCmNoLabel "groups: []")
    (mkCm "" "groups: []") fsBase (by decide) (by decide)⟩

/-- C9: an object without the tenant label has tenant `""`; its rules file is
`path.Join(path.Join(BaseDir, ""), "rules.yaml")`, which is
`path.Join(BaseDir, "rules.yaml")`; `OnAdd` does to the filesystem what writing
the payload to that path does after the discarded `os.Mkdir` of the base
directory; and when the base directory exists and `rules.yaml` in it is not a
directory, `OnAdd` changes nothing but that file, directly in the base
directory, which then holds the payload. -/
theorem OnAdd_without_label (h : handler) (cm : ConfigMap) (fs : FS)
    (hlab : cm.Labels.lookup labelKey = none) :
    mapIndex cm.Labels labelKey = ""
      ∧ h.rulesFile cm = path.Join [path.Join [h.BaseDir, ""], "rules.yaml"]
      ∧ h.rulesFile cm = path.Join [h.BaseDir, "rules.yaml"]
      ∧ (h.OnAdd cm fs).1
          = (ioutil.WriteFile (os.Mkdir fs (path.Join [h.BaseDir, ""])).1
              (path.Join [h.BaseDir, "rules.yaml"]) (mapIndex cm.Data dataKey)).1
      ∧ ∀ b, resolve fs (path.Join [h.BaseDir, ""]) = .ok b
          → fs.lookup b = some Node.dir
          → fs.lookup (b ++ ["rules.yaml"]) ≠ some Node.dir
          → (h.OnAdd cm fs).1 = fs.set (b ++ ["rules.yaml"]) (Node.file (mapIndex cm.Data dataKey))
            ∧ readFile (h.OnAdd cm fs).1 (path.Join [h.BaseDir, "rules.yaml"])
                = some (mapIndex cm.Data dataKey) := by
  have h0 : mapIndex cm.Labels labelKey = "" := by simp [mapIndex, hlab]
  have h1 : h.tenantDir cm = path.Join [h.BaseDir, ""] := by
    simp [handler.tenantDir, h0]
  have h2 : h.rulesFile cm = path.Join [path.Join [h.BaseDir, ""], "rules.yaml"] := by
    simp [handler.rulesFile, h1, dataKey]
  have h3 : h.rulesFile cm = path.Join [h.BaseDir, "rules.yaml"] := by
    rw [h2]
    exact Join_Join_empty h.BaseDir dataKey dataKey_isName dataKey_slashFree
  refine ⟨h0, h2, h3, ?_, ?_⟩
  · rw [OnAdd_fst, addRule_eq, h1, h3]
  · intro b hb hd hf
    have hres : resolve fs (h.tenantDir cm) = .ok b := by rw [h1]; exact hb
    have hok := addRule_ok h cm fs b hres (Or.inr hd) hf
    constructor
    · rw [OnAdd_fst, hok]
      simp [addState, hd, dataKey]
    · rw [← h3, OnAdd_fst]
      exact addRule_writes_payload h cm fs b hres (Or.inr hd) hf

theorem OnAdd_without_label_witness :
    hDefault.rulesFile (mkCmNoLabel "groups: []") = "/etc/loki/rules/rules.yaml"
      ∧ readFile (hDefault.OnAdd (mkCmNoLabel "groups: []") fsBase).1
          "/etc/loki/rules/rules.yaml" = some "groups: []" :=
  ⟨by decide,
    ((OnAdd_without_label hDefault (mkCmNoLabel "groups: []") fsBase (by decide)).2.2.2.2
      ["etc", "loki", "rules"] rfl (by decide) (by decide)).2⟩

end RuleSyncer

namespace RuleSyncer

/-! ## Paths made of ordinary names -/

theorem walkLast_names (fs : FS) (es : List String) (hes : ∀ e ∈ es, isName e = true) :
    ∀ cur c t, walkLast fs cur (c :: es) = .ok t → t = stepTarget cur c ++ es := by
  induction es with
  | nil => intro cur c t h; simp [walkLast] at h; simp [h]
  | cons e es ih =>
    intro cur c t h
    simp only [walkLast] at h
    cases hc : checkDir fs (stepTarget cur c) with
    | error x => rw [hc] at h; simp at h
    | ok u =>
      rw [hc] at h
      have := ih (fun x hx => hes x (by simp [hx])) (stepTarget cur c) e t h
      rw [this, stepTarget_name _ e (hes e (by simp))]
      simp

/-- A lookup along ordinary names depends only on the nodes at the proper
prefixes of the path. -/
theorem walkLast_names_congr (a b : FS) (es : List String)
    (hes : ∀ e ∈ es, isName e = true) :
    ∀ cur c,
      (∀ pre, pre <+: es → pre ≠ es →
        b.lookup (stepTarget cur c ++ pre) = a.lookup (stepTarget cur c ++ pre)) →
      walkLast b cur (c :: es) = walkLast a cur (c :: es) := by
  induction es with
  | nil => intro cur c _; simp [walkLast]
  | cons e es ih =>
    intro cur c hag
    simp only [walkLast]
    have h0 : checkDir b (stepTarget cur c) = checkDir a (stepTarget cur c) := by
      have := hag [] (List.nil_prefix) (by simp)
      simp only [List.append_nil] at this
      simp [checkDir, this]
    rw [h0]
    cases checkDir a (stepTarget cur c) with
    | error x => rfl
    | ok u =>
      simp only
      apply ih (fun x hx => hes x (by simp [hx]))
      intro pre hpre hne
      rw [stepTarget_name _ e (hes e (by simp))]
      have := hag (e :: pre) (by simpa using hpre) (by simpa using hne)
      simpa using this

theorem resolve_clean_elems (fs : FS) (p : String) (hp : path.Clean p = p)
    (hne : cleanElems p ≠ []) :
    resolve fs p
      = walkLast fs (if isRooted p then [] else fs.cwd) (startElem (isRooted p) :: cleanElems p) := by
  have := resolve_Clean fs p
  rw [hp, if_neg hne] at this
  exact this

theorem lastElem_clean (p : String) (hp : path.Clean p = p) (hne : cleanElems p ≠ []) :
    lastElem p = (cleanElems p).getLastD "" := by
  rw [← pathElems_getLastD]
  have := pathElems_Clean p
  rw [hp, if_neg hne] at this
  rw [this]
  cases h : cleanElems p with
  | nil => exact absurd h hne
  | cons w ws => simp

theorem getLastD_mem {es : List String} (hne : es ≠ []) : es.getLastD "" ∈ es := by
  have h1 : es.getLastD "" = es.getLast hne := by
    rw [List.getLastD_eq_getLast?, List.getLast?_eq_getLast es hne]
    rfl
  rw [h1]
  exact List.getLast_mem hne

theorem isRooted_Join (a b : String) (ha : a ≠ "") : isRooted (path.Join [a, b]) = isRooted a := by
  rw [Join_cons_ne a b ha, isRooted_Clean, isRooted_append a ha]

theorem prefix_append_left_iff (s a b : List String) : s ++ a <+: s ++ b ↔ a <+: b :=
  List.prefix_append_right_inj s

theorem lookup_removeTree_of_not_prefix (fs : FS) (t q : List String)
    (h : ¬ t <+: q) : (fs.removeTree t).lookup q = fs.lookup q := by
  by_cases hq : q = []
  · subst hq; simp [lookup_nil]
  · simp only [FS.lookup, hq, if_false, FS.removeTree]
    have : t.isPrefixOf q = false := by
      cases hb : t.isPrefixOf q with
      | false => rfl
      | true => exact absurd (List.isPrefixOf_iff_prefix.1 hb) h
    simp [this]

end RuleSyncer

namespace RuleSyncer

theorem tenantDir_ne_of_name (h : handler) (cm : ConfigMap)
    (hname : isName (lastElem (h.tenantDir cm)) = true) : h.tenantDir cm ≠ "" := by
  intro he
  rw [he] at hname
  exact absurd hname (by decide)

theorem addRule_cwd (h : handler) (cm : ConfigMap) (fs : FS) :
    (h.addRule cm fs).1.cwd = fs.cwd := by
  rw [addRule_eq, WriteFile_cwd, Mkdir_cwd]

theorem addRule_DirLE (h : handler) (cm : ConfigMap) (fs : FS) : DirLE fs (h.addRule cm fs).1 := by
  rw [addRule_eq]
  exact DirLE_trans (Mkdir_DirLE fs _) (WriteFile_DirLE _ _ _)

/-- Adding a rule touches nothing outside the tenant directory. -/
theorem addRule_frame (h : handler) (cm : ConfigMap) (fs : FS) (t q : List String)
    (hres : resolve fs (h.tenantDir cm) = .ok t) (hq : t.isPrefixOf q = false) :
    (h.addRule cm fs).1.node q = fs.node q := by
  have hne := resolve_ne_empty hres
  have hqt : q ≠ t := by
    intro e
    subst e
    have h2 : q.isPrefixOf q = true := List.isPrefixOf_iff_prefix.2 (List.prefix_refl q)
    rw [h2] at hq
    exact absurd hq (by simp)
  have hqf : q ≠ t ++ [dataKey] := by
    intro e
    subst e
    have : t.isPrefixOf (t ++ [dataKey]) = true :=
      List.isPrefixOf_iff_prefix.2 (List.prefix_append t [dataKey])
    rw [this] at hq
    simp at hq
  have hres1 : resolve (os.Mkdir fs (h.tenantDir cm)).1 (h.tenantDir cm) = .ok t :=
    resolve_mono (Mkdir_cwd fs _).symm (Mkdir_DirLE fs _) hres
  have hm : (os.Mkdir fs (h.tenantDir cm)).1.node q = fs.node q := by
    rcases Mkdir_cases fs (h.tenantDir cm) with ⟨e, hm, _⟩ | ⟨t2, hr2, _, hm⟩
    · rw [hm]
    · rw [hres] at hr2
      simp at hr2
      subst hr2
      rw [hm]
      simp [FS.set, hqt]
  rw [addRule_eq, ← hm]
  rcases WriteFile_cases (os.Mkdir fs (h.tenantDir cm)).1 (h.rulesFile cm)
      (mapIndex cm.Data dataKey) with ⟨e, hw⟩ | ⟨f, hrf, _, hw⟩
  · rw [hw]
  · rw [hw]
    rw [resolve_rulesFile h cm _ hne, hres1] at hrf
    have hf : f = t ++ [dataKey] := by
      simp only [enterDir] at hrf
      split at hrf
      · simp at hrf; exact hrf.symm
      · simp at hrf
    subst hf
    simp [FS.set, hqf]

theorem cleanElems_rulesFile (h : handler) (cm : ConfigMap) (hne : h.tenantDir cm ≠ "") :
    cleanElems (h.rulesFile cm) = cleanElems (h.tenantDir cm) ++ [dataKey] := by
  show cleanElems (path.Join [h.tenantDir cm, dataKey]) = _
  rw [Join_cons_ne _ _ hne, cleanElems_Clean]
  unfold cleanElems
  rw [cleanStack_child _ dataKey hne dataKey_isName dataKey_slashFree]
  simp

/-- Removing a tree leaves alone every path of ordinary names that does not
pass through it. -/
theorem stat_removeTree (fs : FS) (p : String) (E1 : List String)
    (hp : path.Clean p = p) (hne : cleanElems p ≠ [])
    (hn : ∀ e ∈ cleanElems p, isName e = true) (hnp : ¬ E1 <+: cleanElems p) :
    stat (fs.removeTree ((if isRooted p then [] else fs.cwd) ++ E1)) p = stat fs p := by
  have hst : ∀ cur : List String, stepTarget cur (startElem (isRooted p)) = cur :=
    fun cur => stepTarget_start cur _
  have hcong : resolve (fs.removeTree ((if isRooted p then [] else fs.cwd) ++ E1)) p
      = resolve fs p := by
    rw [resolve_clean_elems _ p hp hne, resolve_clean_elems fs p hp hne]
    show walkLast _ (if isRooted p then [] else fs.cwd) _ = _
    apply walkLast_names_congr _ _ _ hn
    intro pre hpre _
    rw [hst]
    apply lookup_removeTree_of_not_prefix
    intro hx
    exact hnp (List.IsPrefix.trans ((prefix_append_left_iff _ _ _).1 hx) hpre)
  unfold stat
  rw [hcong]
  cases hr : resolve fs p with
  | error e => rfl
  | ok f =>
    simp only
    rw [resolve_clean_elems fs p hp hne] at hr
    have hf := walkLast_names fs _ hn _ _ _ hr
    rw [hst] at hf
    subst hf
    apply lookup_removeTree_of_not_prefix
    intro hx
    exact hnp ((prefix_append_left_iff _ _ _).1 hx)

end RuleSyncer

namespace RuleSyncer

theorem all_isName {es : List String} (h : es.all isName = true) : ∀ e ∈ es, isName e = true := by
  simpa using h

/-- After the removal of a base directory whose path ends in an ordinary name,
nothing of any tenant is left under it. -/
theorem RemoveAll_base (h : handler) (fs : FS)
    (hname : isName (lastElem (path.Join [h.BaseDir, ""])) = true) :
    h.noTenantLeft (os.RemoveAll fs (path.Join [h.BaseDir, ""])).1 := by
  have hb : h.BaseDir ≠ "" := by
    intro he
    rw [he, Join_empty_empty] at hname
    exact absurd hname (by decide)
  have hclean : path.Clean (path.Join [h.BaseDir, ""]) = path.Join [h.BaseDir, ""] :=
    Join_clean _ _ hb
  have hbd : path.Join [h.BaseDir, ""] ≠ "" := by
    rw [← hclean]; exact Clean_ne_empty _
  have hgone := RemoveAll_gone fs _ hname
  refine ⟨pathExists_false_of_stat hgone, ?_⟩
  intro T hT hsf
  have hsf2 : slashFree T := hsf
  have h1 : path.Join [h.BaseDir, T] = path.Join [path.Join [h.BaseDir, ""], T] :=
    (Join_Join_empty h.BaseDir T hT hsf2).symm
  have h2 := stat_child_none _ _ T hclean hT hsf2 hgone
  rw [← h1] at h2
  refine ⟨pathExists_false_of_stat h2, readFile_none_of_stat ?_⟩
  exact stat_child_none _ _ dataKey (Join_clean _ _ hb) dataKey_isName dataKey_slashFree h2

/-! ## The claims about removal -/

/-- C2 (amended): for every update that changes the tenant, provided the base
directory is not empty, the cleaned old tenant directory path and the cleaned
new rules file path consist of ordinary names only (no `..`; the old one is not
`/` or `.`), the old tenant directory is neither the new rules file nor the new
tenant directory nor an ancestor of them, and the state lets the new tenant
directory be used (it can be looked up and is missing or a directory, and
`rules.yaml` below it is not a directory): after `OnUpdate` the new rules file
holds the new payload and the old tenant directory no longer exists. -/
theorem OnUpdate_moves_tenant (h : handler) (oldCm newCm : ConfigMap) (fs : FS)
    (t2 : List String)
    (hten : mapIndex oldCm.Labels labelKey ≠ mapIndex newCm.Labels labelKey)
    (hbase : h.BaseDir ≠ "")
    (hres : resolve fs (h.tenantDir newCm) = .ok t2)
    (hdir : fs.lookup t2 = none ∨ fs.lookup t2 = some Node.dir)
    (hfile : fs.lookup (t2 ++ [dataKey]) ≠ some Node.dir)
    (hold : cleanElems (h.tenantDir oldCm) ≠ [])
    (hn1 : (cleanElems (h.tenantDir oldCm)).all isName = true)
    (hn2 : (cleanElems (h.rulesFile newCm)).all isName = true)
    (hnp : (cleanElems (h.tenantDir oldCm)).isPrefixOf (cleanElems (h.rulesFile newCm)) = false) :
    readFile (h.OnUpdate oldCm newCm fs).1 (h.rulesFile newCm)
        = some (mapIndex newCm.Data dataKey)
      ∧ pathExists (h.OnUpdate oldCm newCm fs).1 (h.tenantDir oldCm) = false := by
  have hc1 : path.Clean (h.tenantDir oldCm) = h.tenantDir oldCm := Join_clean _ _ hbase
  have hname : isName (lastElem (h.tenantDir oldCm)) = true := by
    rw [lastElem_clean _ hc1 hold]
    exact all_isName hn1 _ (getLastD_mem hold)
  have hne2 : h.tenantDir newCm ≠ "" := resolve_ne_empty hres
  have hc2 : path.Clean (h.rulesFile newCm) = h.rulesFile newCm := Join_clean _ _ hne2
  have hF2 : cleanElems (h.rulesFile newCm) ≠ [] := by
    rw [cleanElems_rulesFile h newCm hne2]; simp
  have hroot : isRooted (h.rulesFile newCm) = isRooted (h.tenantDir oldCm) := by
    show isRooted (path.Join [h.tenantDir newCm, dataKey]) = isRooted (path.Join _)
    rw [isRooted_Join _ _ hne2, isRooted_Join _ _ hbase]
    show isRooted (path.Join _) = _
    rw [isRooted_Join _ _ hbase]
  have hread := addRule_writes_payload h newCm fs t2 hres hdir hfile
  rw [OnUpdate_fst_tenant h oldCm newCm fs hten, deleteRule_eq]
  refine ⟨?_, pathExists_false_of_stat (RemoveAll_gone _ _ hname)⟩
  rcases RemoveAll_cases (h.addRule newCm fs).1 (h.tenantDir oldCm)
    with hu | ⟨t1, hr1, _, _, ⟨hpin, _⟩ | ⟨_, _, hrm⟩⟩
  · rw [hu]; exact hread
  · exfalso
    rcases hpin with h0 | h0
    · exact resolve_name_ne_nil hname hr1 h0
    · exact (isName_ne hname).2.2 h0
  · rw [hrm]
    rw [resolve_clean_elems _ _ hc1 hold] at hr1
    have ht1 := walkLast_names _ _ (all_isName hn1) _ _ _ hr1
    rw [stepTarget_start, ← hroot] at ht1
    have hnp2 : ¬ cleanElems (h.tenantDir oldCm) <+: cleanElems (h.rulesFile newCm) := by
      intro hx
      rw [List.isPrefixOf_iff_prefix.2 hx] at hnp
      exact absurd hnp (by simp)
    have := stat_removeTree (h.addRule newCm fs).1 (h.rulesFile newCm)
      (cleanElems (h.tenantDir oldCm)) hc2 hF2 (all_isName hn2) hnp2
    rw [← ht1] at this
    unfold readFile at hread ⊢
    rw [this]
    exact hread

theorem OnUpdate_moves_tenant_witness :
    readFile (hDefault.OnUpdate (mkCm "team-a" "groups: []") (mkCm "team-b" "groups: [x]")
        fsTenant).1 "/etc/loki/rules/team-b/rules.yaml" = some "groups: [x]"
      ∧ pathExists (hDefault.OnUpdate (mkCm "team-a" "groups: []") (mkCm "team-b" "groups: [x]")
        fsTenant).1 "/etc/loki/rules/team-a" = false :=
  OnUpdate_moves_tenant hDefault (mkCm "team-a" "groups: []") (mkCm "team-b" "groups: [x]")
    fsTenant ["etc", "loki", "rules", "team-b"] (by decide) (by decide) rfl
    (Or.inl (by decide)) (by decide) (by decide) (by decide) (by decide) (by decide)

/-- C2 as stated fails in each of the three cases it names: when the old tenant
is empty, when the old tenant is a path prefix of the new one, and when both
tenants clean to the same directory, the removal of the old tenant directory
takes the rules file just written with it. -/
theorem OnUpdate_removes_new_file :
    (isDir fsTenant hDefault.BaseDir = true
      ∧ readFile (hDefault.OnUpdate (mkCm "" "groups: []") (mkCm "team-b" "groups: []")
          fsTenant).1 (hDefault.rulesFile (mkCm "team-b" "groups: []")) = none)
    ∧ (isDir fsTenant (hDefault.tenantDir (mkCm "team-a" "groups: []")) = true
      ∧ readFile (hDefault.OnUpdate (mkCm "team-a" "groups: []") (mkCm "team-a/b" "groups: []")
          fsTenant).1 (hDefault.rulesFile (mkCm "team-a/b" "groups: []")) = none)
    ∧ (readFile (hDefault.OnUpdate (mkCm "team-a" "groups: []") (mkCm "./team-a" "groups: []")
          fsTenant).1 (hDefault.rulesFile (mkCm "./team-a" "groups: []")) = none) := by
  decide

/-- C6 (amended): `OnDelete` twice is `OnDelete` once, for every object and
state; and whenever the tenant directory path ends in an ordinary name (it is
not empty, `/`, `.` or a path ending in `..`): after `OnDelete` the path names
nothing, the rules file below it does not exist, every node that was at or
below an existing tenant directory is gone, and `deleteRule` in a state where
`os.Stat` reports the path as not existing returns no error and the same
state. -/
theorem OnDelete_removes (h : handler) (cm : ConfigMap) (fs : FS) :
    (h.OnDelete cm (h.OnDelete cm fs).1).1 = (h.OnDelete cm fs).1
      ∧ (isName (lastElem (h.tenantDir cm)) = true →
          pathExists (h.OnDelete cm fs).1 (h.tenantDir cm) = false
            ∧ readFile (h.OnDelete cm fs).1 (h.rulesFile cm) = none
            ∧ (∀ t q, resolve fs (h.tenantDir cm) = .ok t → fs.lookup t ≠ none →
                t.isPrefixOf q = true → (h.OnDelete cm fs).1.node q = none)
            ∧ (statErrno fs (h.tenantDir cm) = some Errno.ENOENT →
                h.deleteRule cm fs = (fs, none))) := by
  refine ⟨?_, ?_⟩
  · rw [OnDelete_fst, OnDelete_fst, deleteRule_eq, deleteRule_eq, RemoveAll_idem]
  · intro hname
    have hne := tenantDir_ne_of_name h cm hname
    have hgone : stat (h.OnDelete cm fs).1 (h.tenantDir cm) = none := by
      rw [OnDelete_fst, deleteRule_eq]
      exact RemoveAll_gone fs _ hname
    refine ⟨pathExists_false_of_stat hgone, readFile_none_of_stat ?_, ?_, ?_⟩
    · exact stat_child_none _ _ dataKey (tenantDir_clean h cm hne) dataKey_isName
        dataKey_slashFree hgone
    · intro t q hr hl hq
      rw [OnDelete_fst, deleteRule_eq]
      exact RemoveAll_below fs _ hname t q hr hl hq
    · intro hst
      rw [deleteRule_eq]
      exact RemoveAll_absent fs _ (isName_ne hname).2.1 hst

theorem OnDelete_removes_witness :
    pathExists fsTenant "/etc/loki/rules/team-a" = true
      ∧ pathExists (hDefault.OnDelete (mkCm "team-a" "groups: []") fsTenant).1
          "/etc/loki/rules/team-a" = false
      ∧ readFile (hDefault.OnDelete (mkCm "team-a" "groups: []") fsTenant).1
          "/etc/loki/rules/team-a/rules.yaml" = none :=
  ⟨by decide,
    ((OnDelete_removes hDefault (mkCm "team-a" "groups: []") fsTenant).2 (by decide)).1,
    ((OnDelete_removes hDefault (mkCm "team-a" "groups: []") fsTenant).2 (by decide)).2.1⟩

/-- C6 as stated fails: a tenant directory path that is `.` or `/` still exists
after `OnDelete`, since `os.RemoveAll` refuses the one and cannot remove the
other. -/
theorem OnDelete_keeps_dot_and_root :
    (hHere.tenantDir (mkCm "" "groups: []") = "."
      ∧ pathExists (hHere.OnDelete (mkCm "" "groups: []") fsSrv).1
          (hHere.tenantDir (mkCm "" "groups: []")) = true)
    ∧ (hDefault.tenantDir (mkCm "../../.." "groups: []") = "/"
      ∧ pathExists (hDefault.OnDelete (mkCm "../../.." "groups: []") fsBase).1
          (hDefault.tenantDir (mkCm "../../.." "groups: []")) = true) := by
  decide

end RuleSyncer

namespace RuleSyncer

/-- C7 (amended): for every update that keeps the tenant and changes the
payload, in every state: the resulting state is that of `OnAdd(new)`, no
directory is removed, and, when the tenant directory path can be looked up,
every node outside the tenant directory is unchanged; when moreover the tenant
directory is missing or a directory and `rules.yaml` below it is not a
directory, the rules file holds the new payload. -/
theorem OnUpdate_same_tenant (h : handler) (oldCm newCm : ConfigMap) (fs : FS)
    (hten : mapIndex oldCm.Labels labelKey = mapIndex newCm.Labels labelKey)
    (hdat : mapIndex oldCm.Data dataKey ≠ mapIndex newCm.Data dataKey) :
    (h.OnUpdate oldCm newCm fs).1 = (h.OnAdd newCm fs).1
      ∧ (∀ q, fs.lookup q = some Node.dir →
          (h.OnUpdate oldCm newCm fs).1.lookup q = some Node.dir)
      ∧ ∀ t, resolve fs (h.tenantDir newCm) = .ok t →
          (∀ q, t.isPrefixOf q = false → (h.OnUpdate oldCm newCm fs).1.node q = fs.node q)
            ∧ ((fs.lookup t = none ∨ fs.lookup t = some Node.dir) →
                fs.lookup (t ++ [dataKey]) ≠ some Node.dir →
                readFile (h.OnUpdate oldCm newCm fs).1 (h.rulesFile newCm)
                  = some (mapIndex newCm.Data dataKey)) := by
  have h1 := OnUpdate_fst_data h oldCm newCm fs hten hdat
  refine ⟨by rw [h1, OnAdd_fst], ?_, ?_⟩
  · intro q hq
    rw [h1]
    exact addRule_DirLE h newCm fs q hq
  · intro t hres
    refine ⟨?_, ?_⟩
    · intro q hq
      rw [h1]
      exact addRule_frame h newCm fs t q hres hq
    · intro hdir hfile
      rw [h1]
      exact addRule_writes_payload h newCm fs t hres hdir hfile

theorem OnUpdate_same_tenant_witness :
    readFile (hDefault.OnUpdate (mkCm "team-a" "groups: []") (mkCm "team-a" "groups: [x]")
        fsTenant).1 "/etc/loki/rules/team-a/rules.yaml" = some "groups: [x]" :=
  ((OnUpdate_same_tenant hDefault (mkCm "team-a" "groups: []") (mkCm "team-a" "groups: [x]")
      fsTenant (by decide) (by decide)).2.2 ["etc", "loki", "rules", "team-a"] rfl).2
    (Or.inr (by decide)) (by decide)

/-- C7 as stated fails: in a state where the base directory exists and the
name of the tenant directory is taken by a regular file, an update of the
payload leaves no rules file holding the new payload. -/
theorem OnUpdate_same_tenant_no_file :
    isDir fsTaken hDefault.BaseDir = true
      ∧ hDefault.rulesFile (mkCm "t" "groups: [x]") = "/etc/loki/rules/t/rules.yaml"
      ∧ readFile (hDefault.OnUpdate (mkCm "t" "groups: []") (mkCm "t" "groups: [x]") fsTaken).1
          (hDefault.rulesFile (mkCm "t" "groups: [x]")) = none
      ∧ (hDefault.OnUpdate (mkCm "t" "groups: []") (mkCm "t" "groups: [x]") fsTaken).2
          = [LogLine.err ⟨"open", "/etc/loki/rules/t/rules.yaml", Errno.ENOTDIR⟩,
              LogLine.msg "update rules in cm"] := by
  decide

/-- C10 (amended): for every object whose tenant label is absent or empty the
tenant directory is `path.Join(BaseDir, "")`, the base directory itself; when
that path ends in an ordinary name (the base directory is not empty and does
not clean to `.`, `/` or a path ending in `..`), after `OnDelete` of the object,
and after an `OnUpdate` from it to an object with another tenant, the base
directory names nothing and no ordinary tenant has a tenant directory or a
rules file under it, the one just written for the new tenant included; every
node at or below an existing base directory is gone. -/
theorem empty_tenant_removes_base (h : handler) (cm : ConfigMap) (fs : FS)
    (hten : mapIndex cm.Labels labelKey = "")
    (hname : isName (lastElem (path.Join [h.BaseDir, ""])) = true) :
    h.tenantDir cm = path.Join [h.BaseDir, ""]
      ∧ h.noTenantLeft (h.OnDelete cm fs).1
      ∧ (∀ b q, resolve fs (path.Join [h.BaseDir, ""]) = .ok b → fs.lookup b ≠ none →
          b.isPrefixOf q = true → (h.OnDelete cm fs).1.node q = none)
      ∧ ∀ newCm : ConfigMap, mapIndex newCm.Labels labelKey ≠ "" →
          h.noTenantLeft (h.OnUpdate cm newCm fs).1
            ∧ ∀ b q, resolve (h.addRule newCm fs).1 (path.Join [h.BaseDir, ""]) = .ok b →
                (h.addRule newCm fs).1.lookup b ≠ none → b.isPrefixOf q = true →
                (h.OnUpdate cm newCm fs).1.node q = none := by
  have h0 : h.tenantDir cm = path.Join [h.BaseDir, ""] := by
    simp [handler.tenantDir, hten]
  refine ⟨h0, ?_, ?_, ?_⟩
  · rw [OnDelete_fst, deleteRule_eq, h0]
    exact RemoveAll_base h fs hname
  · intro b q hb hl hq
    rw [OnDelete_fst, deleteRule_eq, h0]
    exact RemoveAll_below fs _ hname b q hb hl hq
  · intro newCm hnew
    have hne : mapIndex cm.Labels labelKey ≠ mapIndex newCm.Labels labelKey := by
      rw [hten]; exact fun e => hnew e.symm
    rw [OnUpdate_fst_tenant h cm newCm fs hne, deleteRule_eq, h0]
    refine ⟨RemoveAll_base h _ hname, ?_⟩
    intro b q hb hl hq
    exact RemoveAll_below _ _ hname b q hb hl hq

theorem empty_tenant_removes_base_witness :
    pathExists (hDefault.OnDelete (mkCm "" "groups: []") fsTenant).1 "/etc/loki/rules" = false
      ∧ readFile (hDefault.OnUpdate (mkCm "" "groups: []") (mkCm "team-b" "groups: [x]")
          fsTenant).1 "/etc/loki/rules/team-b/rules.yaml" = none :=
  ⟨(empty_tenant_removes_base hDefault (mkCm "" "groups: []") fsTenant
      (by decide) (by decide)).2.1.1,
    ((((empty_tenant_removes_base hDefault (mkCm "" "groups: []") fsTenant
      (by decide) (by decide)).2.2.2 (mkCm "team-b" "groups: [x]") (by decide)).1).2
        "team-b" (by decide) (by decide)).2⟩

/-- C10 as stated fails: with an empty base directory the tenant directory of
an object with an empty tenant is the empty path, whose removal does nothing,
and with the base directory `.` the removal is refused; in both cases
`OnDelete` leaves the directory and rules file of tenant `t` in place. -/
theorem OnDelete_empty_tenant_keeps_tenants :
    (handler.tenantDir ⟨""⟩ (mkCm "" "groups: []") = ""
      ∧ handler.rulesFile ⟨""⟩ (mkCm "t" "groups: []") = "t/rules.yaml"
      ∧ readFile (handler.OnDelete ⟨""⟩ (mkCm "" "groups: []") fsSrvTenant).1
          (handler.rulesFile ⟨""⟩ (mkCm "t" "groups: []")) = some "groups: []"
      ∧ (handler.OnDelete ⟨""⟩ (mkCm "" "groups: []") fsSrvTenant).2
          = [LogLine.msg "delete rules in cm"])
    ∧ (hHere.tenantDir (mkCm "" "groups: []") = "."
      ∧ readFile (hHere.OnDelete (mkCm "" "groups: []") fsSrvTenant).1
          (hHere.rulesFile (mkCm "t" "groups: []")) = some "groups: []") := by
  decide

end RuleSyncer
